import Mathlib

/-!
# Buffer manager (lab2/BufMgr/src/buffer.cpp)

A shallow embedding of `badgerdb::BufMgr`: the frame pool, the descriptor
table, the clock hand, the page directory and the file store the manager
talks to are one explicit state that every operation threads through.

* `File*` values are file identities (natural numbers); a descriptor whose `file`
  is `none` holds the null pointer.
* A C++ exception is the `Result.throw` outcome and carries the state at the
  point of the throw: the manager stays usable after a failed call.
* The `while` loop of `allocBuf` runs on fuel; `Result.diverge` is the
  outcome of a loop that has not finished when the fuel is spent.
* `std::uint32_t` / `uint8_t` arithmetic is `Nat` arithmetic with an
  explicit modulus.
-/

namespace badgerdb

/-! `FrameId` and `PageId` are unsigned integers and a `File*` is the identity
of a file object: all three are natural numbers below. -/

/-- Modelled from the spec: the `Page` class (declared outside buffer.cpp),
fixed-size content (`data`) plus `page_number()` (`number`). -/
structure Page where
  number : Nat
  data : Nat
deriving DecidableEq, Repr, Inhabited

/-- Modelled from the spec: the frame descriptor `BufDesc` (declared in
buffer.h): owning file or none, page number, frame index, pin count, dirty,
valid and refbit. -/
structure BufDesc where
  file : Option Nat
  pageNo : Nat
  frameNo : Nat
  pinCnt : Nat
  dirty : Bool
  valid : Bool
  refbit : Bool
deriving DecidableEq, Repr

/-- Modelled from the spec: `BufDesc::Clear()` (buffer.h), the reset of a
descriptor to its initial empty state: not valid, pin count 0, not dirty,
refbit clear, no file. The frame index is kept. -/
def BufDesc.Clear (d : BufDesc) : BufDesc :=
  { d with file := none, pageNo := 0, pinCnt := 0, dirty := false,
           valid := false, refbit := false }

/-- Modelled from the spec: `BufDesc::Set(file, pageNo)` (buffer.h), the
initialisation of a descriptor on a miss: `valid = true`, `refbit = true`,
`pinCnt = 1`, `dirty = false`. -/
def BufDesc.Set (d : BufDesc) (file : Nat) (pageNo : Nat) : BufDesc :=
  { d with file := some file, pageNo := pageNo, pinCnt := 1, dirty := false,
           valid := true, refbit := true }

/-- Modelled from the spec: the default-constructed descriptor `BufDesc()`
(buffer.h), the initial empty state. -/
def BufDesc.init : BufDesc :=
  { file := none, pageNo := 0, frameNo := 0, pinCnt := 0, dirty := false,
    valid := false, refbit := false }

instance : Inhabited BufDesc := ⟨BufDesc.init⟩

/-- Modelled from the spec: the page directory `BufHashTbl` (declared outside
buffer.cpp), a mapping from (file, page number) to the frame holding the
page, with lookup, insert and remove. -/
structure BufHashTbl where
  entries : List ((Nat × Nat) × Nat)
deriving DecidableEq, Repr

/-- Modelled from the spec: `lookup(file, pageNo) -> frame`; `none` is the
not-found condition (`HashNotFoundException`). -/
def BufHashTbl.lookup (h : BufHashTbl) (file : Nat) (pageNo : Nat) :
    Option Nat :=
  (h.entries.find? (fun e => decide (e.1 = (file, pageNo)))).map (fun e => e.2)

/-- Modelled from the spec: `remove(file, pageNo)`. -/
def BufHashTbl.remove (h : BufHashTbl) (file : Nat) (pageNo : Nat) :
    BufHashTbl :=
  ⟨h.entries.filter (fun e => decide (e.1 ≠ (file, pageNo)))⟩

/-- Modelled from the spec: `insert(file, pageNo, frame)`; afterwards the key
maps to `frame`. -/
def BufHashTbl.insert (h : BufHashTbl) (file : Nat) (pageNo : Nat)
    (frame : Nat) : BufHashTbl :=
  ⟨((file, pageNo), frame) :: (h.remove file pageNo).entries⟩

/-- Requests the manager sends to the file abstraction, in order of issue. -/
inductive IOEvent where
  | read (file : Nat) (pageNo : Nat)
  | write (file : Nat) (page : Page)
  | allocate (file : Nat) (pageNo : Nat)
  | delete (file : Nat) (pageNo : Nat)
deriving DecidableEq, Repr

/-- The exceptions that can leave a manager operation. `InvalidPageException`
is the file abstraction reporting a page absent; `NullPointer` stands for a
call through a null `File*`. -/
inductive Exc where
  | BufferExceededException
  | PageNotPinnedException
  | PagePinnedException
  | BadBufferException
  | InvalidPageException
  | NullPointer
deriving DecidableEq, Repr

/-- The manager (`numBufs`, `bufDescTable`, `bufPool`, `hashTable`,
`clockHand`) together with the file store (`disk`: the pages of every file)
and the trace of file requests issued so far (`log`). -/
structure State where
  numBufs : Nat
  bufDescTable : List BufDesc
  bufPool : List Page
  hashTable : BufHashTbl
  clockHand : Nat
  disk : List (Nat × Page)
  log : List IOEvent
deriving DecidableEq, Repr

/-- Outcome of an operation. -/
inductive Result (α : Type) where
  | ok (a : α) (s : State)
  | throw (e : Exc) (s : State)
  | diverge
deriving DecidableEq, Repr

/-- Read access `bufDescTable[i]`. -/
def State.desc (s : State) (i : Nat) : BufDesc := s.bufDescTable.getD i default

/-- Read access `bufPool[i]`. -/
def State.page (s : State) (i : Nat) : Page := s.bufPool.getD i default

/-- Write access `bufDescTable[i] = d`. -/
def State.setDesc (s : State) (i : Nat) (d : BufDesc) : State :=
  { s with bufDescTable := s.bufDescTable.set i d }

/-- Write access `bufPool[i] = p`. -/
def State.setPage (s : State) (i : Nat) (p : Page) : State :=
  { s with bufPool := s.bufPool.set i p }

/-! ### The file abstraction (external collaborator) -/

/-- Modelled from the spec: `File::readPage(pageNo) -> Page`, failing when the
page is absent. The request is recorded in the trace. -/
def fileReadPage (s : State) (file : Nat) (pageNo : Nat) : Option Page × State :=
  ((s.disk.find? (fun e => decide (e.1 = file ∧ e.2.number = pageNo))).map (fun e => e.2),
   { s with log := s.log ++ [IOEvent.read file pageNo] })

/-- Modelled from the spec: `File::writePage(Page)`, storing the page under
its own page number. -/
def fileWritePage (s : State) (file : Nat) (p : Page) : State :=
  { s with
    disk := (file, p) :: s.disk.filter (fun e => decide (¬ (e.1 = file ∧ e.2.number = p.number))),
    log := s.log ++ [IOEvent.write file p] }

/-- Modelled from the spec: `File::allocatePage() -> Page`, assigning a page
number not in use in the file (one more than the largest in use). -/
def fileAllocatePage (s : State) (file : Nat) : Page × State :=
  let n := ((s.disk.filter (fun e => decide (e.1 = file))).map (fun e => e.2.number)).foldl max 0 + 1
  let p : Page := { number := n, data := 0 }
  (p, { s with disk := (file, p) :: s.disk, log := s.log ++ [IOEvent.allocate file n] })

/-- Modelled from the spec: `File::deletePage(pageNo)`. -/
def fileDeletePage (s : State) (file : Nat) (pageNo : Nat) : State :=
  { s with
    disk := s.disk.filter (fun e => decide (¬ (e.1 = file ∧ e.2.number = pageNo))),
    log := s.log ++ [IOEvent.delete file pageNo] }

/-! ### The manager -/

/-- The constructor `BufMgr::BufMgr(bufs)`: every descriptor not valid with
`frameNo` its position, default pages, an empty directory, the clock hand on
the last slot (`bufs - 1` in `uint32_t`). `disk` is the file store the
manager is going to work on. -/
def BufMgr (bufs : Nat) (disk : List (Nat × Page)) : State :=
  { numBufs := bufs
    bufDescTable := (List.range bufs).map
      (fun i => { BufDesc.init with frameNo := i, valid := false })
    bufPool := List.replicate bufs default
    hashTable := ⟨[]⟩
    clockHand := (bufs + 4294967296 - 1) % 4294967296
    disk := disk
    log := [] }

/-- The step `clockHand = (clockHand + 1) % numBufs` on `uint32_t`. -/
def advanceClock (s : State) : State :=
  { s with clockHand := ((s.clockHand + 1) % 4294967296) % s.numBufs }

/-- One pass through the body of the `while` loop of `allocBuf`, after its
`advanceClock()`: the frame under the hand loses its refbit, or is evicted
(written back first when dirty), or is counted in the `uint8_t` counter
`bufPinned`. Returns the counter and the state. -/
def allocBufBody (bufPinned : Nat) (s : State) : Except (Exc × State) (Nat × State) :=
  let d := s.desc s.clockHand
  if d.refbit then
    .ok (bufPinned, s.setDesc s.clockHand { d with refbit := false })
  else if d.pinCnt = 0 then
    if d.dirty then
      match d.file with
      | none => .error (Exc.NullPointer, s)
      | some f =>
        let s1 := fileWritePage s f (s.page s.clockHand)
        .ok (bufPinned, s1.setDesc s1.clockHand { d with valid := false })
    else
      .ok (bufPinned, s.setDesc s.clockHand { d with valid := false })
  else
    .ok ((bufPinned + 1) % 256, s)

/-- The `while (bufDescTable[clockHand].valid)` loop of `allocBuf`. -/
def allocBufLoop : Nat → Nat → State → Result Nat
  | 0, _, _ => Result.diverge
  | fuel + 1, bufPinned, s =>
    if (s.desc s.clockHand).valid then
      match allocBufBody bufPinned (advanceClock s) with
      | .error (e, s1) => Result.throw e s1
      | .ok (bufPinned1, s1) =>
        if bufPinned1 = s1.numBufs then
          Result.throw Exc.BufferExceededException s1
        else
          allocBufLoop fuel bufPinned1 s1
    else
      Result.ok s.clockHand s

/-- The method `BufMgr::allocBuf(frame)`; the result is the value of `frame`. -/
def allocBuf (fuel : Nat) (s : State) : Result Nat :=
  allocBufLoop fuel 0 (advanceClock s)

/-- The method `BufMgr::readPage(file, pageNo, page)`; the result is the frame
whose slot `page` points to. -/
def readPage (fuel : Nat) (s : State) (file : Nat) (pageNo : Nat) : Result Nat :=
  match s.hashTable.lookup file pageNo with
  | some frame =>
    let d := s.desc frame
    Result.ok frame (s.setDesc frame { d with refbit := true, pinCnt := d.pinCnt + 1 })
  | none =>
    match allocBuf fuel s with
    | Result.ok frame s1 =>
      match fileReadPage s1 file pageNo with
      | (none, s2) => Result.throw Exc.InvalidPageException s2
      | (some p, s2) =>
        let s3 := s2.setPage frame p
        let s4 := { s3 with hashTable := s3.hashTable.insert file pageNo frame }
        Result.ok frame (s4.setDesc frame ((s4.desc frame).Set file pageNo))
    | Result.throw e s1 => Result.throw e s1
    | Result.diverge => Result.diverge

/-- The method `BufMgr::unPinPage(file, pageNo, dirty)`. -/
def unPinPage (s : State) (file : Nat) (pageNo : Nat) (dirty : Bool) : Result Unit :=
  match s.hashTable.lookup file pageNo with
  | some frame =>
    let d := s.desc frame
    if d.pinCnt = 0 then
      Result.throw Exc.PageNotPinnedException s
    else
      Result.ok () (s.setDesc frame { d with pinCnt := d.pinCnt - 1, dirty := d.dirty || dirty })
  | none => Result.ok () s

/-- The `for` loop of `BufMgr::flushFile(file)` from frame `frame` on, with
`n` frames left to visit. -/
def flushFileLoop (file : Nat) : Nat → Nat → State → Result Unit
  | 0, _, s => Result.ok () s
  | n + 1, frame, s =>
    let d := s.desc frame
    if d.file = some file then
      if !d.valid then
        Result.throw Exc.BadBufferException s
      else if d.pinCnt > 0 then
        Result.throw Exc.PagePinnedException s
      else
        let s1 := if d.dirty then
            (fileWritePage s file (s.page frame)).setDesc frame { d with dirty := false }
          else s
        let s2 := { s1 with hashTable := s1.hashTable.remove file (s1.desc frame).pageNo }
        flushFileLoop file n (frame + 1) (s2.setDesc frame (s2.desc frame).Clear)
    else
      flushFileLoop file n (frame + 1) s

/-- The method `BufMgr::flushFile(file)`. -/
def flushFile (s : State) (file : Nat) : Result Unit :=
  flushFileLoop file s.numBufs 0 s

/-- The method `BufMgr::allocPage(file, pageNo, page)`. `page` is the object
the caller's pointer refers to on entry: the page number reported is read
through it (`pageNo = page->page_number()`). The result is the pair of the
output `pageNo` and the frame whose slot `page` points to on return. -/
def allocPage (fuel : Nat) (s : State) (file : Nat) (page : Page) :
    Result (Nat × Nat) :=
  match fileAllocatePage s file with
  | (page_tmp, s1) =>
    let pageNo := page.number
    match allocBuf fuel s1 with
    | Result.ok frame s2 =>
      let s3 := { s2 with hashTable := s2.hashTable.insert file pageNo frame }
      let s4 := s3.setDesc frame ((s3.desc frame).Set file pageNo)
      Result.ok (pageNo, frame) (s4.setPage frame page_tmp)
    | Result.throw e s2 => Result.throw e s2
    | Result.diverge => Result.diverge

/-- The method `BufMgr::disposePage(file, PageNo)`. -/
def disposePage (s : State) (file : Nat) (PageNo : Nat) : Result Unit :=
  let s1 := match s.hashTable.lookup file PageNo with
    | some frame => s.setDesc frame (s.desc frame).Clear
    | none => s
  let s2 := { s1 with hashTable := s1.hashTable.remove file PageNo }
  Result.ok () (fileDeletePage s2 file PageNo)

/-- The `for` loop of the destructor `BufMgr::~BufMgr()` from frame `i` on, with
`n` frames left to visit: `flushFile(bufDescTable[i].file)` for every frame
that is valid. A valid frame always has a file (`Set` stores the caller's
file); the call with a null file is not modelled and stands as `NullPointer`. -/
def destructorLoop : Nat → Nat → State → Result Unit
  | 0, _, s => Result.ok () s
  | n + 1, i, s =>
    if (s.desc i).valid then
      match (s.desc i).file with
      | none => Result.throw Exc.NullPointer s
      | some f =>
        match flushFile s f with
        | Result.ok _ s1 => destructorLoop n (i + 1) s1
        | Result.throw e s1 => Result.throw e s1
        | Result.diverge => Result.diverge
    else
      destructorLoop n (i + 1) s

/-- The flush loop of the destructor `BufMgr::~BufMgr()`. -/
def destructor (s : State) : Result Unit :=
  destructorLoop s.numBufs 0 s

/-- A call of a public operation. -/
inductive Op where
  | readPage (file : Nat) (pageNo : Nat)
  | unPinPage (file : Nat) (pageNo : Nat) (dirty : Bool)
  | allocPage (file : Nat) (page : Page)
  | flushFile (file : Nat)
  | disposePage (file : Nat) (PageNo : Nat)
deriving DecidableEq, Repr

/-- The state a call leaves behind, whether it returns or throws; `none` when
it does not finish. -/
def Op.exec (fuel : Nat) (s : State) : Op → Option State
  | Op.readPage f p =>
    match badgerdb.readPage fuel s f p with
    | Result.ok _ s1 => some s1
    | Result.throw _ s1 => some s1
    | Result.diverge => none
  | Op.unPinPage f p d =>
    match badgerdb.unPinPage s f p d with
    | Result.ok _ s1 => some s1
    | Result.throw _ s1 => some s1
    | Result.diverge => none
  | Op.allocPage f pg =>
    match badgerdb.allocPage fuel s f pg with
    | Result.ok _ s1 => some s1
    | Result.throw _ s1 => some s1
    | Result.diverge => none
  | Op.flushFile f =>
    match badgerdb.flushFile s f with
    | Result.ok _ s1 => some s1
    | Result.throw _ s1 => some s1
    | Result.diverge => none
  | Op.disposePage f p =>
    match badgerdb.disposePage s f p with
    | Result.ok _ s1 => some s1
    | Result.throw _ s1 => some s1
    | Result.diverge => none

/-- The state after a sequence of calls, each run to its return or throw. -/
def run (fuel : Nat) : List Op → State → Option State
  | [], s => some s
  | op :: ops, s =>
    match op.exec fuel s with
    | some s1 => run fuel ops s1
    | none => none

/-- A call of a public operation that returns normally leaves `some` state;
`none` when it throws or does not finish. -/
def Op.execOk (fuel : Nat) (s : State) : Op → Option State
  | Op.readPage f p =>
    match badgerdb.readPage fuel s f p with
    | Result.ok _ s1 => some s1
    | Result.throw _ _ => none
    | Result.diverge => none
  | Op.unPinPage f p d =>
    match badgerdb.unPinPage s f p d with
    | Result.ok _ s1 => some s1
    | Result.throw _ _ => none
    | Result.diverge => none
  | Op.allocPage f pg =>
    match badgerdb.allocPage fuel s f pg with
    | Result.ok _ s1 => some s1
    | Result.throw _ _ => none
    | Result.diverge => none
  | Op.flushFile f =>
    match badgerdb.flushFile s f with
    | Result.ok _ s1 => some s1
    | Result.throw _ _ => none
    | Result.diverge => none
  | Op.disposePage f p =>
    match badgerdb.disposePage s f p with
    | Result.ok _ s1 => some s1
    | Result.throw _ _ => none
    | Result.diverge => none

/-- The state after a sequence of calls all of which return normally. -/
def runOk (fuel : Nat) : List Op → State → Option State
  | [], s => some s
  | op :: ops, s =>
    match op.execOk fuel s with
    | some s1 => runOk fuel ops s1
    | none => none

/-- The frames returned by `k` consecutive calls `readPage(file, pageNo)`, in
order, and the state after the last call; `none` when a call does not return
normally. -/
def readPageTimes (fuel : Nat) (file pageNo : Nat) : Nat → State → Option (List Nat × State)
  | 0, s => some ([], s)
  | k + 1, s =>
    match readPage fuel s file pageNo with
    | Result.ok i s1 => (readPageTimes fuel file pageNo k s1).map (fun r => (i :: r.1, r.2))
    | Result.throw _ _ => none
    | Result.diverge => none

/-- The state after `k` consecutive calls `unPinPage(file, pageNo, dirty)`;
`none` when a call does not return normally. -/
def unPinPageTimes (file pageNo : Nat) (dirty : Bool) : Nat → State → Option State
  | 0, s => some s
  | k + 1, s =>
    match unPinPage s file pageNo dirty with
    | Result.ok _ s1 => unPinPageTimes file pageNo dirty k s1
    | Result.throw _ _ => none
    | Result.diverge => none

/-- The state a call leaves behind, whether it returns or throws, except that
a `readPage` for which the file reports the page absent gives `none`. -/
def Op.execPresent (fuel : Nat) (s : State) : Op → Option State
  | Op.readPage f p =>
    match badgerdb.readPage fuel s f p with
    | Result.ok _ s1 => some s1
    | Result.throw e s1 => if e = Exc.InvalidPageException then none else some s1
    | Result.diverge => none
  | Op.unPinPage f p d =>
    match badgerdb.unPinPage s f p d with
    | Result.ok _ s1 => some s1
    | Result.throw _ s1 => some s1
    | Result.diverge => none
  | _ => none

/-- The state after a sequence of `readPage` and `unPinPage` calls none of
which asks the file for an absent page. -/
def runPresent (fuel : Nat) : List Op → State → Option State
  | [], s => some s
  | op :: ops, s =>
    match op.execPresent fuel s with
    | some s1 => runPresent fuel ops s1
    | none => none

/-! ### Predicates used in the statements -/

/-- Structural well-formedness: the two arrays have `numBufs` slots, `numBufs`
is a positive `uint32_t` and the clock hand is inside the pool. -/
structure State.WF (s : State) : Prop where
  pos : 0 < s.numBufs
  u32 : s.numBufs < 4294967296
  descLen : s.bufDescTable.length = s.numBufs
  poolLen : s.bufPool.length = s.numBufs
  hand : s.clockHand < s.numBufs

/-- The fields of a descriptor that the clock sweep never changes. -/
def BufDesc.core (d : BufDesc) : Option Nat × Nat × Nat × Nat × Bool :=
  (d.file, d.pageNo, d.frameNo, d.pinCnt, d.dirty)

/-- What a sweep step that evicts nothing leaves alone: everything except
refbits and the clock hand. -/
structure RefStep (s s1 : State) : Prop where
  numBufs : s1.numBufs = s.numBufs
  pool : s1.bufPool = s.bufPool
  table : s1.hashTable = s.hashTable
  descLen : s1.bufDescTable.length = s.bufDescTable.length
  log : s1.log = s.log
  disk : s1.disk = s.disk
  core : ∀ j, (s1.desc j).core = (s.desc j).core
  valid : ∀ j, (s1.desc j).valid = (s.desc j).valid
  refbit : ∀ j, (s1.desc j).refbit = true → (s.desc j).refbit = true

/-- What a successful `allocBuf` guarantees about the frame `i` it returns and
the state `s1` it leaves, relative to the state `s` it started from. -/
structure AllocOk (s : State) (i : Nat) (s1 : State) : Prop where
  numBufs : s1.numBufs = s.numBufs
  pool : s1.bufPool = s.bufPool
  table : s1.hashTable = s.hashTable
  descLen : s1.bufDescTable.length = s.bufDescTable.length
  hand : s1.clockHand = i
  lt : i < s.numBufs
  invalid : (s1.desc i).valid = false
  core : ∀ j, (s1.desc j).core = (s.desc j).core
  valid : ∀ j, j ≠ i → (s1.desc j).valid = (s.desc j).valid
  refbit : ∀ j, (s1.desc j).refbit = true → (s.desc j).refbit = true
  unpinned : (s.desc i).valid = true → (s.desc i).pinCnt = 0
  io : (((s.desc i).valid = false ∨ (s.desc i).dirty = false) ∧
          s1.log = s.log ∧ s1.disk = s.disk) ∨
       ((s.desc i).dirty = true ∧ ∃ f, (s.desc i).file = some f ∧
          s1.log = s.log ++ [IOEvent.write f (s.page i)] ∧
          s1.disk = (fileWritePage s f (s.page i)).disk)

/-- Every frame of the pool is valid and pinned. -/
def State.AllPinned (s : State) : Prop :=
  ∀ j, j < s.numBufs → (s.desc j).valid = true ∧ 0 < (s.desc j).pinCnt

/-- The invariant behind pin safety: a frame that is not valid is not pinned,
and every directory entry points at a valid frame of the pool. -/
structure State.PinInv (s : State) : Prop where
  wf : s.WF
  invalidUnpinned : ∀ j, j < s.numBufs → (s.desc j).valid = false → (s.desc j).pinCnt = 0
  dirValid : ∀ e, e ∈ s.hashTable.entries → e.2 < s.numBufs ∧ (s.desc e.2).valid = true

/-- Number of descriptors whose refbit is set. -/
def State.refCount (s : State) : Nat := s.bufDescTable.countP (fun d => d.refbit)

/-- The state after the loop of `flushFile` has dealt with one frame that names
the file, is valid and is not pinned. -/
def flushStep (s : State) (file frame : Nat) : State :=
  let d := s.desc frame
  let s1 := if d.dirty then
      (fileWritePage s file (s.page frame)).setDesc frame { d with dirty := false }
    else s
  let s2 := { s1 with hashTable := s1.hashTable.remove file (s1.desc frame).pageNo }
  s2.setDesc frame (s2.desc frame).Clear

/-- The write requests `flushFile(file)` owes for the frames listed: one per
frame that names `file` and is dirty, with the frame's contents, in order. -/
def flushWrites (s : State) (file : Nat) (frames : List Nat) : List IOEvent :=
  (frames.filter (fun j => decide ((s.desc j).file = some file) && (s.desc j).dirty)).map
    (fun j => IOEvent.write file (s.page j))

/-- The write requests teardown owes: one per frame that is valid and dirty,
to the frame's file with the frame's contents, in frame order. -/
def pendingWrites (s : State) : List IOEvent :=
  ((List.range s.numBufs).filter (fun j => (s.desc j).valid && (s.desc j).dirty)).map
    (fun j => IOEvent.write ((s.desc j).file.getD 0) (s.page j))

/-- What a successful run of the loop of `flushFile(file)` over the frames
`i, ..., i + k - 1` leaves: those frames that named `file` are reset, every
other descriptor and the pool are as before, the trace has grown by the owed
writes, and the directory has lost the keys of the reset frames and no other. -/
structure FlushOk (s : State) (file i k : Nat) (s1 : State) : Prop where
  numBufs : s1.numBufs = s.numBufs
  pool : s1.bufPool = s.bufPool
  hand : s1.clockHand = s.clockHand
  descLen : s1.bufDescTable.length = s.bufDescTable.length
  cleared : ∀ j, i ≤ j → j < i + k → (s.desc j).file = some file →
    s1.desc j = (s.desc j).Clear
  kept : ∀ j, ¬ (i ≤ j ∧ j < i + k ∧ (s.desc j).file = some file) → s1.desc j = s.desc j
  log : s1.log = s.log ++ flushWrites s file (List.range' i k)
  dirGone : ∀ j, i ≤ j → j < i + k → (s.desc j).file = some file →
    s1.hashTable.lookup file (s.desc j).pageNo = none
  dirKept : ∀ f p, (∀ j, i ≤ j → j < i + k → (s.desc j).file = some file →
    (f, p) ≠ (file, (s.desc j).pageNo)) → s1.hashTable.lookup f p = s.hashTable.lookup f p
  dirNone : ∀ f p, s.hashTable.lookup f p = none → s1.hashTable.lookup f p = none

/-- Every frame is either empty (not valid, no file) or holds a page of some
file and is not pinned. -/
structure State.Quiescent (s : State) : Prop where
  unpinned : ∀ j, j < s.numBufs → (s.desc j).valid = true →
    (s.desc j).pinCnt = 0 ∧ ∃ f, (s.desc j).file = some f
  empty : ∀ j, j < s.numBufs → (s.desc j).valid = false → (s.desc j).file = none

/-- The states reachable from a freshly constructed pool by the public
operations, each call run to its return or throw. What callers write into a
page through the pointer `readPage` hands out is not part of a run; it does
not touch the descriptors. -/
def Reachable (s : State) : Prop :=
  ∃ fuel bufs disk ops, 0 < bufs ∧ bufs < 4294967296 ∧
    run fuel ops (BufMgr bufs disk) = some s

/-- An invariant of every reachable state: the pool is well formed and every
valid frame has an owning file. -/
structure State.Owned (s : State) : Prop where
  wf : s.WF
  owner : ∀ j, (s.desc j).valid = true → ∃ f, (s.desc j).file = some f

/-- The state an outcome carries satisfies `Owned`. -/
def Result.Owned {α : Type} : Result α → Prop
  | Result.ok _ s => s.Owned
  | Result.throw _ s => s.Owned
  | Result.diverge => True

/-- A file store with one file, number 1, holding pages 1 to 5. -/
def demoDisk : List (Nat × Page) :=
  [(1, ⟨1, 11⟩), (1, ⟨2, 12⟩), (1, ⟨3, 13⟩), (1, ⟨4, 14⟩), (1, ⟨5, 15⟩)]

/-- The pool of `n` frames after pages 1 to `n` of file 1 have been fetched
once each into a fresh pool and none released: frame `i` holds page `i + 1`,
valid, pinned once, refbit set. -/
def fullPool (n : Nat) : State :=
  { numBufs := n
    bufDescTable := (List.range n).map (fun i =>
      { file := some 1, pageNo := i + 1, frameNo := i, pinCnt := 1, dirty := false,
        valid := true, refbit := true })
    bufPool := (List.range n).map (fun i => { number := i + 1, data := 0 })
    hashTable := ⟨((List.range n).map (fun i => ((1, i + 1), i))).reverse⟩
    clockHand := n - 1
    disk := (List.range n).map (fun i => (1, { number := i + 1, data := 0 }))
    log := (List.range n).map (fun i => IOEvent.read 1 (i + 1)) }

/-- The pool of `n` frames after pages 1 to `k` of file 1 have been fetched
into a fresh pool and none released. -/
def partialPool (n k : Nat) : State :=
  { numBufs := n
    bufDescTable := (List.range n).map (fun i =>
      if i < k then
        { file := some 1, pageNo := i + 1, frameNo := i, pinCnt := 1, dirty := false,
          valid := true, refbit := true }
      else { BufDesc.init with frameNo := i, valid := false })
    bufPool := (List.range n).map (fun i =>
      if i < k then { number := i + 1, data := 0 } else default)
    hashTable := ⟨((List.range k).map (fun i => ((1, i + 1), i))).reverse⟩
    clockHand := if k = 0 then n - 1 else k - 1
    disk := (List.range n).map (fun i => (1, { number := i + 1, data := 0 }))
    log := (List.range k).map (fun i => IOEvent.read 1 (i + 1)) }

/-- The calls that fetch pages 1 to `n` of file 1, in order. -/
def fullOps (n : Nat) : List Op := (List.range n).map (fun i => Op.readPage 1 (i + 1))

/-- The pool of 3 frames holding pages 1, 2, 3 of file 1 in frames 0, 1, 2, all
released (`pinCnt = 0`), refbits set, clock hand at 2. -/
def releasedPool : State :=
  { numBufs := 3
    bufDescTable :=
      [{ file := some 1, pageNo := 1, frameNo := 0, pinCnt := 0, dirty := false,
         valid := true, refbit := true },
       { file := some 1, pageNo := 2, frameNo := 1, pinCnt := 0, dirty := false,
         valid := true, refbit := true },
       { file := some 1, pageNo := 3, frameNo := 2, pinCnt := 0, dirty := false,
         valid := true, refbit := true }]
    bufPool := [⟨1, 11⟩, ⟨2, 12⟩, ⟨3, 13⟩]
    hashTable := ⟨[((1, 3), 2), ((1, 2), 1), ((1, 1), 0)]⟩
    clockHand := 2
    disk := demoDisk
    log := [IOEvent.read 1 1, IOEvent.read 1 2, IOEvent.read 1 3] }

/-- A pool of one frame holding page 1 of file 1, released dirty. -/
def dirtyPool : State :=
  { numBufs := 1
    bufDescTable := [{ file := some 1, pageNo := 1, frameNo := 0, pinCnt := 0, dirty := true,
                       valid := true, refbit := true }]
    bufPool := [⟨1, 99⟩]
    hashTable := ⟨[((1, 1), 0)]⟩
    clockHand := 0
    disk := demoDisk
    log := [IOEvent.read 1 1] }

/-! ### Basic facts -/

theorem State.desc_setDesc_eq (s : State) (i : Nat) (d : BufDesc)
    (h : i < s.bufDescTable.length) : (s.setDesc i d).desc i = d := by
  simp [State.desc, State.setDesc, List.getD_eq_getElem?_getD, h]

theorem State.desc_setDesc_ne (s : State) (i j : Nat) (d : BufDesc)
    (h : j ≠ i) : (s.setDesc i d).desc j = s.desc j := by
  simp [State.desc, State.setDesc, List.getD_eq_getElem?_getD, List.getElem?_set_ne (Ne.symm h)]

theorem State.page_setPage_eq (s : State) (i : Nat) (p : Page)
    (h : i < s.bufPool.length) : (s.setPage i p).page i = p := by
  simp [State.page, State.setPage, List.getD_eq_getElem?_getD, h]

theorem State.page_setPage_ne (s : State) (i j : Nat) (p : Page)
    (h : j ≠ i) : (s.setPage i p).page j = s.page j := by
  simp [State.page, State.setPage, List.getD_eq_getElem?_getD, List.getElem?_set_ne (Ne.symm h)]

theorem advanceClock_hand (s : State) (h : s.WF) :
    (advanceClock s).clockHand = (s.clockHand + 1) % s.numBufs := by
  have h1 := h.hand
  have h2 := h.u32
  have h3 : (s.clockHand + 1) % 4294967296 = s.clockHand + 1 := Nat.mod_eq_of_lt (by omega)
  simp only [advanceClock, h3]

theorem advanceClock_WF (s : State) (h : s.WF) : (advanceClock s).WF := by
  refine ⟨h.pos, h.u32, h.descLen, h.poolLen, ?_⟩
  rw [advanceClock_hand s h]
  exact Nat.mod_lt _ h.pos

theorem RefStep.rfl_ (s : State) : RefStep s s :=
  ⟨rfl, rfl, rfl, rfl, rfl, rfl, fun _ => rfl, fun _ => rfl, fun _ h => h⟩

theorem RefStep.advance (s : State) : RefStep s (advanceClock s) :=
  ⟨rfl, rfl, rfl, rfl, rfl, rfl, fun _ => rfl, fun _ => rfl, fun _ h => h⟩

theorem RefStep.trans {s s1 s2 : State} (h1 : RefStep s s1) (h2 : RefStep s1 s2) :
    RefStep s s2 :=
  ⟨h2.numBufs.trans h1.numBufs, h2.pool.trans h1.pool, h2.table.trans h1.table,
   h2.descLen.trans h1.descLen, h2.log.trans h1.log, h2.disk.trans h1.disk,
   fun j => (h2.core j).trans (h1.core j), fun j => (h2.valid j).trans (h1.valid j),
   fun j h => h1.refbit j (h2.refbit j h)⟩

theorem RefStep.preservesWF {s s1 : State} (h : RefStep s s1) (hwf : s.WF)
    (hh : s1.clockHand < s1.numBufs) : s1.WF :=
  ⟨h.numBufs ▸ hwf.pos, h.numBufs ▸ hwf.u32, by rw [h.descLen, h.numBufs, hwf.descLen],
   by rw [h.pool, h.numBufs, hwf.poolLen], hh⟩

theorem State.page_eq_of_pool {s s1 : State} (h : s1.bufPool = s.bufPool) (j : Nat) :
    s1.page j = s.page j := by
  simp [State.page, h]

theorem core_dirty {d d1 : BufDesc} (h : d1.core = d.core) : d1.dirty = d.dirty := by
  simp only [BufDesc.core, Prod.mk.injEq] at h; exact h.2.2.2.2

theorem core_pinCnt {d d1 : BufDesc} (h : d1.core = d.core) : d1.pinCnt = d.pinCnt := by
  simp only [BufDesc.core, Prod.mk.injEq] at h; exact h.2.2.2.1

theorem core_file {d d1 : BufDesc} (h : d1.core = d.core) : d1.file = d.file := by
  simp only [BufDesc.core, Prod.mk.injEq] at h; exact h.1

theorem core_pageNo {d d1 : BufDesc} (h : d1.core = d.core) : d1.pageNo = d.pageNo := by
  simp only [BufDesc.core, Prod.mk.injEq] at h; exact h.2.1

theorem core_frameNo {d d1 : BufDesc} (h : d1.core = d.core) : d1.frameNo = d.frameNo := by
  simp only [BufDesc.core, Prod.mk.injEq] at h; exact h.2.2.1

theorem AllocOk.of_refStep {s s1 s2 : State} {i : Nat} (h1 : RefStep s s1)
    (h2 : AllocOk s1 i s2) : AllocOk s i s2 where
  numBufs := h2.numBufs.trans h1.numBufs
  pool := h2.pool.trans h1.pool
  table := h2.table.trans h1.table
  descLen := h2.descLen.trans h1.descLen
  hand := h2.hand
  lt := h1.numBufs ▸ h2.lt
  invalid := h2.invalid
  core := fun j => (h2.core j).trans (h1.core j)
  valid := fun j hj => (h2.valid j hj).trans (h1.valid j)
  refbit := fun j h => h1.refbit j (h2.refbit j h)
  unpinned := fun hv => by
    rw [← core_pinCnt (h1.core i)]
    exact h2.unpinned (by rw [h1.valid i]; exact hv)
  io := by
    have hd := core_dirty (h1.core i)
    have hf := core_file (h1.core i)
    have hv := h1.valid i
    have hp := State.page_eq_of_pool h1.pool i
    rcases h2.io with ⟨a, b, c⟩ | ⟨a, f, b, c, d⟩
    · left
      refine ⟨?_, b.trans h1.log, c.trans h1.disk⟩
      rw [← hv, ← hd]; exact a
    · right
      refine ⟨by rw [← hd]; exact a, f, by rw [← hf]; exact b, ?_, ?_⟩
      · rw [c, h1.log, hp]
      · rw [d]; simp [fileWritePage, h1.disk, hp]

theorem allocBufLoop_of_invalid (fuel bp : Nat) (s : State) (i : Nat) (s1 : State)
    (hv : (s.desc s.clockHand).valid = false)
    (h : allocBufLoop fuel bp s = Result.ok i s1) : i = s.clockHand ∧ s1 = s := by
  cases fuel with
  | zero => simp [allocBufLoop] at h
  | succ n =>
    simp [allocBufLoop, hv] at h
    exact ⟨h.1.symm, h.2.symm⟩

/-- One pass of the loop body either changes refbits only, or evicts the frame
under the hand. -/
theorem allocBufBody_ok {bp bp1 : Nat} {s s1 : State} (hwf : s.WF)
    (h : allocBufBody bp s = Except.ok (bp1, s1)) :
    s1.clockHand = s.clockHand ∧
    (RefStep s s1 ∨ (AllocOk s s.clockHand s1 ∧ (s1.desc s1.clockHand).valid = false)) := by
  have hlen : s.clockHand < s.bufDescTable.length := by rw [hwf.descLen]; exact hwf.hand
  unfold allocBufBody at h
  simp only at h
  split at h
  · -- refbit set: cleared
    rename_i hr
    simp only [Except.ok.injEq, Prod.mk.injEq] at h
    obtain ⟨-, rfl⟩ := h
    refine ⟨rfl, Or.inl ⟨rfl, rfl, rfl, by simp [State.setDesc], rfl, rfl, ?_, ?_, ?_⟩⟩
    · intro j
      by_cases hj : j = s.clockHand
      · subst hj; rw [State.desc_setDesc_eq _ _ _ hlen]; rfl
      · rw [State.desc_setDesc_ne _ _ _ _ hj]
    · intro j
      by_cases hj : j = s.clockHand
      · subst hj; rw [State.desc_setDesc_eq _ _ _ hlen]
      · rw [State.desc_setDesc_ne _ _ _ _ hj]
    · intro j
      by_cases hj : j = s.clockHand
      · subst hj; rw [State.desc_setDesc_eq _ _ _ hlen]; simp
      · rw [State.desc_setDesc_ne _ _ _ _ hj]; exact id
  · rename_i hr
    split at h
    · rename_i hp
      split at h
      · rename_i hd
        split at h
        · simp at h
        · rename_i f hf
          rw [show (fileWritePage s f (s.page s.clockHand)).clockHand = s.clockHand from rfl] at h
          simp only [Except.ok.injEq, Prod.mk.injEq] at h
          obtain ⟨-, rfl⟩ := h
          have hlen1 : s.clockHand < (fileWritePage s f (s.page s.clockHand)).bufDescTable.length := hlen
          refine ⟨rfl, Or.inr ⟨⟨rfl, rfl, rfl, by simp [State.setDesc, fileWritePage], rfl,
            hwf.hand, ?_, ?_, ?_, ?_, fun _ => hp, ?_⟩, ?_⟩⟩
          · exact (State.desc_setDesc_eq _ _ _ hlen1).symm ▸ rfl
          · intro j
            by_cases hj : j = s.clockHand
            · subst hj; rw [State.desc_setDesc_eq _ _ _ hlen1]; rfl
            · rw [State.desc_setDesc_ne _ _ _ _ hj]; rfl
          · intro j hj
            rw [State.desc_setDesc_ne _ _ _ _ hj]; rfl
          · intro j
            by_cases hj : j = s.clockHand
            · subst hj; rw [State.desc_setDesc_eq _ _ _ hlen1]; simp [hr]
            · rw [State.desc_setDesc_ne _ _ _ _ hj]; exact id
          · right
            exact ⟨hd, f, hf, rfl, rfl⟩
          · exact (State.desc_setDesc_eq _ _ _ hlen1).symm ▸ rfl
      · rename_i hd
        simp only [Except.ok.injEq, Prod.mk.injEq] at h
        obtain ⟨-, rfl⟩ := h
        refine ⟨rfl, Or.inr ⟨⟨rfl, rfl, rfl, by simp [State.setDesc], rfl,
          hwf.hand, ?_, ?_, ?_, ?_, fun _ => hp, ?_⟩, ?_⟩⟩
        · exact (State.desc_setDesc_eq _ _ _ hlen).symm ▸ rfl
        · intro j
          by_cases hj : j = s.clockHand
          · subst hj; rw [State.desc_setDesc_eq _ _ _ hlen]; rfl
          · rw [State.desc_setDesc_ne _ _ _ _ hj]
        · intro j hj
          rw [State.desc_setDesc_ne _ _ _ _ hj]
        · intro j
          by_cases hj : j = s.clockHand
          · subst hj; rw [State.desc_setDesc_eq _ _ _ hlen]; simp [hr]
          · rw [State.desc_setDesc_ne _ _ _ _ hj]; exact id
        · left
          exact ⟨Or.inr (by simpa using hd), rfl, rfl⟩
        · exact (State.desc_setDesc_eq _ _ _ hlen).symm ▸ rfl
    · simp only [Except.ok.injEq, Prod.mk.injEq] at h
      obtain ⟨-, rfl⟩ := h
      exact ⟨rfl, Or.inl (RefStep.rfl_ s)⟩

/-- The contract of the loop of `allocBuf` when it returns a frame. -/
theorem allocBufLoop_ok (fuel : Nat) : ∀ (bp : Nat) (s : State) (i : Nat) (s1 : State),
    s.WF → allocBufLoop fuel bp s = Result.ok i s1 → AllocOk s i s1 := by
  induction fuel with
  | zero => intro bp s i s1 _ h; simp [allocBufLoop] at h
  | succ n ih =>
    intro bp s i s1 hwf h
    by_cases hv : (s.desc s.clockHand).valid = true
    · simp only [allocBufLoop, hv, if_true] at h
      have hwa := advanceClock_WF s hwf
      cases hb : allocBufBody bp (advanceClock s) with
      | error e => obtain ⟨e1, e2⟩ := e; simp [hb] at h
      | ok r =>
        obtain ⟨bp1, s2⟩ := r
        simp only [hb] at h
        split at h
        · simp at h
        · obtain ⟨hh, hcase⟩ := allocBufBody_ok hwa hb
          rcases hcase with hstep | ⟨hev, hinv⟩
          · have hwf2 : s2.WF := hstep.preservesWF hwa (by rw [hh, hstep.numBufs]; exact hwa.hand)
            exact AllocOk.of_refStep ((RefStep.advance s).trans hstep) (ih bp1 s2 i s1 hwf2 h)
          · obtain ⟨rfl, rfl⟩ := allocBufLoop_of_invalid n bp1 s2 i s1 hinv h
            rw [hh]
            exact AllocOk.of_refStep (RefStep.advance s) hev
    · have hv1 : (s.desc s.clockHand).valid = false := by simpa using hv
      obtain ⟨rfl, rfl⟩ := allocBufLoop_of_invalid (n + 1) bp s i s1 hv1 h
      exact ⟨rfl, rfl, rfl, rfl, rfl, hwf.hand, hv1, fun _ => rfl, fun _ _ => rfl, fun _ h => h,
        fun h => by simp [hv1] at h, Or.inl ⟨Or.inl hv1, rfl, rfl⟩⟩

/-- The contract of `allocBuf` when it returns a frame. -/
theorem allocBuf_ok {fuel : Nat} {s : State} {i : Nat} {s1 : State} (hwf : s.WF)
    (h : allocBuf fuel s = Result.ok i s1) : AllocOk s i s1 :=
  AllocOk.of_refStep (RefStep.advance s)
    (allocBufLoop_ok fuel 0 (advanceClock s) i s1 (advanceClock_WF s hwf) h)

theorem AllocOk.resultWF {s s1 : State} {i : Nat} (h : AllocOk s i s1) (hwf : s.WF) : s1.WF :=
  ⟨h.numBufs ▸ hwf.pos, h.numBufs ▸ hwf.u32, by rw [h.descLen, h.numBufs, hwf.descLen],
   by rw [h.pool, h.numBufs, hwf.poolLen], by rw [h.hand, h.numBufs]; exact h.lt⟩

theorem find?_filter_of_imp {α : Type} (l : List α) (q r : α → Bool)
    (h : ∀ x, r x = true → q x = true) : (l.filter q).find? r = l.find? r := by
  rw [List.find?_filter]
  congr 1
  funext x
  cases hr : r x with
  | false => simp
  | true => simp [h x hr]

/-- A write-back never makes a page of a file absent. -/
theorem fileReadPage_after_write (s : State) (f : Nat) (p : Page) (file pageNo : Nat)
    (h : ((fileReadPage s file pageNo).1).isSome = true) :
    ((fileReadPage (fileWritePage s f p) file pageNo).1).isSome = true := by
  simp only [fileReadPage, fileWritePage, Option.isSome_map'] at h ⊢
  by_cases hk : f = file ∧ p.number = pageNo
  · simp [List.find?_cons, hk]
  · have hk1 : decide ((f, p).1 = file ∧ (f, p).2.number = pageNo) = false := by simpa using hk
    rw [List.find?_cons, hk1]
    simp only
    rw [find?_filter_of_imp]
    · exact h
    · intro x hx
      simp only [decide_eq_true_eq] at hx ⊢
      rintro ⟨h1, h2⟩
      exact hk ⟨h1.symm.trans hx.1, h2.symm.trans hx.2⟩

theorem BufHashTbl.lookup_insert (h : BufHashTbl) (file pageNo frame : Nat) :
    (h.insert file pageNo frame).lookup file pageNo = some frame := by
  simp [BufHashTbl.insert, BufHashTbl.lookup, List.find?_cons]

theorem AllocOk.file_kept {s s1 : State} {i : Nat} (h : AllocOk s i s1) (file pageNo : Nat)
    (hf : ((fileReadPage s file pageNo).1).isSome = true) :
    ((fileReadPage s1 file pageNo).1).isSome = true := by
  rcases h.io with ⟨-, -, hd⟩ | ⟨-, f, -, -, hd⟩
  · simpa [fileReadPage, hd] using hf
  · have := fileReadPage_after_write s f (s.page i) file pageNo hf
    simpa [fileReadPage, hd] using this

/-- The miss path of `readPage`, given the frame `allocBuf` selects and the
page the file returns. -/
theorem readPage_miss_eq (fuel : Nat) (s : State) (file pageNo i : Nat) (s1 : State) (p : Page)
    (hmiss : s.hashTable.lookup file pageNo = none)
    (halloc : allocBuf fuel s = Result.ok i s1)
    (hp : (fileReadPage s1 file pageNo).1 = some p) :
    readPage fuel s file pageNo = Result.ok i
      (({ ((fileReadPage s1 file pageNo).2.setPage i p) with
          hashTable := s1.hashTable.insert file pageNo i }).setDesc i
        ((s1.desc i).Set file pageNo)) := by
  unfold readPage
  rw [hmiss]
  simp only [halloc]
  have : fileReadPage s1 file pageNo = (some p, (fileReadPage s1 file pageNo).2) := by
    rw [← hp]
  rw [this]
  rfl

/-- The miss path of `readPage` in full: the frame, its contents, the
directory entry, the descriptor, and what else the call leaves behind. -/
theorem readPage_miss_spec (fuel : Nat) (s : State) (file pageNo i : Nat) (s1 : State)
    (hwf : s.WF)
    (hmiss : s.hashTable.lookup file pageNo = none)
    (hfile : ((fileReadPage s file pageNo).1).isSome = true)
    (halloc : allocBuf fuel s = Result.ok i s1) :
    ∃ p s2, (fileReadPage s1 file pageNo).1 = some p ∧
      readPage fuel s file pageNo = Result.ok i s2 ∧
      s2.page i = p ∧
      s2.hashTable.lookup file pageNo = some i ∧
      s2.desc i = { file := some file, pageNo := pageNo, frameNo := (s.desc i).frameNo,
                    pinCnt := 1, dirty := false, valid := true, refbit := true } ∧
      i < s2.bufDescTable.length ∧
      s2.log = s1.log ++ [IOEvent.read file pageNo] := by
  have hok := allocBuf_ok hwf halloc
  have hwf1 := hok.resultWF hwf
  have hi : i < s1.numBufs := by rw [hok.numBufs]; exact hok.lt
  obtain ⟨p, hp⟩ := Option.isSome_iff_exists.mp (hok.file_kept file pageNo hfile)
  refine ⟨p, _, hp, readPage_miss_eq fuel s file pageNo i s1 p hmiss halloc hp, ?_, ?_, ?_, ?_, ?_⟩
  · have : (((fileReadPage s1 file pageNo).2.setPage i p)).page i = p :=
      State.page_setPage_eq _ _ _ (by simp [fileReadPage, hwf1.poolLen, hi])
    simpa [State.page, State.setDesc] using this
  · simp [State.setDesc, BufHashTbl.lookup_insert]
  · rw [State.desc_setDesc_eq _ _ _ (by simp [fileReadPage, State.setPage, hwf1.descLen, hi])]
    simp [BufDesc.Set, core_frameNo (hok.core i)]
  · simp [fileReadPage, State.setPage, State.setDesc, hwf1.descLen, hi]
  · simp [fileReadPage, State.setPage, State.setDesc]

/-- C6. The miss path of `readPage`: when the directory has no entry for
(file, pageNo), the file contains the page and `allocBuf` returns frame `i`,
`readPage` returns `i`, frame `i` holds what the file's `readPage` returned,
the directory maps (file, pageNo) to `i` and descriptor `i` is
(file, pageNo, valid, refbit, pinCnt = 1, not dirty). -/
theorem readPage_miss_postcondition (fuel : Nat) (s : State) (file pageNo i : Nat) (s1 : State)
    (hwf : s.WF)
    (hmiss : s.hashTable.lookup file pageNo = none)
    (hfile : ((fileReadPage s file pageNo).1).isSome = true)
    (halloc : allocBuf fuel s = Result.ok i s1) :
    ∃ p s2, (fileReadPage s1 file pageNo).1 = some p ∧
      readPage fuel s file pageNo = Result.ok i s2 ∧
      s2.page i = p ∧
      s2.hashTable.lookup file pageNo = some i ∧
      s2.desc i = { file := some file, pageNo := pageNo, frameNo := (s.desc i).frameNo,
                    pinCnt := 1, dirty := false, valid := true, refbit := true } := by
  obtain ⟨p, s2, h1, h2, h3, h4, h5, -, -⟩ :=
    readPage_miss_spec fuel s file pageNo i s1 hwf hmiss hfile halloc
  exact ⟨p, s2, h1, h2, h3, h4, h5⟩

/-- C9. Write-back on eviction: from a state whose invalid frames are not
dirty, a successful `allocBuf` issues exactly one `writePage`, of the returned
frame's old contents to its old file, when the returned frame was valid and
dirty, and no file request at all otherwise; the pool contents are still the
old ones when it returns. -/
theorem allocBuf_write_back (fuel : Nat) (s : State) (i : Nat) (s1 : State)
    (hwf : s.WF)
    (hclean : ∀ j, j < s.numBufs → (s.desc j).valid = false → (s.desc j).dirty = false)
    (h : allocBuf fuel s = Result.ok i s1) :
    ((s.desc i).valid = true ∧ (s.desc i).dirty = true →
      ∃ f, (s.desc i).file = some f ∧
        s1.log = s.log ++ [IOEvent.write f (s.page i)] ∧
        s1.disk = (fileWritePage s f (s.page i)).disk) ∧
    (¬ ((s.desc i).valid = true ∧ (s.desc i).dirty = true) →
      s1.log = s.log ∧ s1.disk = s.disk) ∧
    s1.bufPool = s.bufPool := by
  have hok := allocBuf_ok hwf h
  refine ⟨?_, ?_, hok.pool⟩
  · rintro ⟨hv, hd⟩
    rcases hok.io with ⟨a | a, -, -⟩ | ⟨-, f, b, c, d⟩
    · rw [hv] at a; cases a
    · rw [hd] at a; cases a
    · exact ⟨f, b, c, d⟩
  · intro hn
    rcases hok.io with ⟨-, b, c⟩ | ⟨a, -, -, -, -⟩
    · exact ⟨b, c⟩
    · exfalso
      apply hn
      refine ⟨?_, a⟩
      cases hv : (s.desc i).valid with
      | true => rfl
      | false => rw [hclean i hok.lt hv] at a; cases a

theorem readPage_hit (fuel : Nat) (s : State) (file pageNo i : Nat)
    (hhit : s.hashTable.lookup file pageNo = some i) :
    readPage fuel s file pageNo = Result.ok i
      (s.setDesc i { s.desc i with refbit := true, pinCnt := (s.desc i).pinCnt + 1 }) := by
  unfold readPage
  rw [hhit]

theorem unPinPage_hit (s : State) (file pageNo i : Nat) (dirty : Bool)
    (hhit : s.hashTable.lookup file pageNo = some i) (hpin : (s.desc i).pinCnt ≠ 0) :
    unPinPage s file pageNo dirty = Result.ok ()
      (s.setDesc i { s.desc i with pinCnt := (s.desc i).pinCnt - 1,
                                    dirty := (s.desc i).dirty || dirty }) := by
  unfold unPinPage
  rw [hhit]
  simp [hpin]

/-- Repeated hits on a resident page: each call returns the same frame and
adds one to its pin count, and nothing but that descriptor changes. -/
theorem readPageTimes_hit (fuel file pageNo i : Nat) : ∀ (k : Nat) (s : State),
    s.hashTable.lookup file pageNo = some i → i < s.bufDescTable.length →
    ∃ sk, readPageTimes fuel file pageNo k s = some (List.replicate k i, sk) ∧
      (sk.desc i).pinCnt = (s.desc i).pinCnt + k ∧
      (0 < k → (sk.desc i).refbit = true) ∧
      ((s.desc i).refbit = true → (sk.desc i).refbit = true) ∧
      sk.hashTable = s.hashTable ∧ sk.bufDescTable.length = s.bufDescTable.length ∧
      sk.log = s.log ∧ sk.disk = s.disk ∧ sk.bufPool = s.bufPool := by
  intro k
  induction k with
  | zero =>
    intro s _ _
    exact ⟨s, rfl, rfl, fun h => absurd h (Nat.lt_irrefl 0), id, rfl, rfl, rfl, rfl, rfl⟩
  | succ k ih =>
    intro s hhit hlen
    let s1 := s.setDesc i { s.desc i with refbit := true, pinCnt := (s.desc i).pinCnt + 1 }
    have h1 : s1.hashTable.lookup file pageNo = some i := hhit
    have h2 : i < s1.bufDescTable.length := by simp [s1, State.setDesc, hlen]
    obtain ⟨sk, e1, e2, -, e3, e4, e5, e6, e7, e8⟩ := ih s1 h1 h2
    have hd : s1.desc i = { s.desc i with refbit := true, pinCnt := (s.desc i).pinCnt + 1 } :=
      State.desc_setDesc_eq _ _ _ hlen
    have hr : (sk.desc i).refbit = true := e3 (by rw [hd])
    refine ⟨sk, ?_, ?_, fun _ => hr, fun _ => hr, e4, ?_, e6, e7, e8⟩
    · simp only [readPageTimes, readPage_hit fuel s file pageNo i hhit]
      rw [e1]
      simp [List.replicate_succ]
    · rw [e2, hd]; simp; omega
    · rw [e5]; simp [s1, State.setDesc]

/-- Repeated releases of a resident page pinned at least `k` times: each call
returns normally and takes one from the pin count. -/
theorem unPinPageTimes_hit (file pageNo i : Nat) (dirty : Bool) : ∀ (k : Nat) (s : State),
    s.hashTable.lookup file pageNo = some i → i < s.bufDescTable.length →
    k ≤ (s.desc i).pinCnt →
    ∃ sk, unPinPageTimes file pageNo dirty k s = some sk ∧
      (sk.desc i).pinCnt = (s.desc i).pinCnt - k := by
  intro k
  induction k with
  | zero => intro s _ _ _; exact ⟨s, rfl, rfl⟩
  | succ k ih =>
    intro s hhit hlen hk
    let s1 := s.setDesc i { s.desc i with pinCnt := (s.desc i).pinCnt - 1,
                                          dirty := (s.desc i).dirty || dirty }
    have hd : s1.desc i = { s.desc i with pinCnt := (s.desc i).pinCnt - 1,
                                          dirty := (s.desc i).dirty || dirty } :=
      State.desc_setDesc_eq _ _ _ hlen
    have h1 : s1.hashTable.lookup file pageNo = some i := hhit
    have h2 : i < s1.bufDescTable.length := by simp [s1, State.setDesc, hlen]
    have h3 : k ≤ (s1.desc i).pinCnt := by rw [hd]; simp; omega
    obtain ⟨sk, e1, e2⟩ := ih s1 h1 h2 h3
    refine ⟨sk, ?_, ?_⟩
    · simp only [unPinPageTimes, unPinPage_hit s file pageNo i dirty hhit (by omega)]
      exact e1
    · rw [e2, hd]; simp; omega

/-- C7. Pin/unpin balance: from a state where (file, pageNo) is not in the
directory, the file has the page and `allocBuf` returns frame `i`, `k ≥ 1`
consecutive `readPage` calls all return `i`, the `j`-th leaves `pinCnt = j` and
`refbit = true`, only the first issues a file request, and `k` following
`unPinPage` calls all return normally and leave `pinCnt = 0`. -/
theorem pin_unpin_balance (fuel k : Nat) (s : State) (file pageNo : Nat) (d : Bool)
    (i : Nat) (s1 : State)
    (hk : 1 ≤ k) (hwf : s.WF)
    (hmiss : s.hashTable.lookup file pageNo = none)
    (hfile : ((fileReadPage s file pageNo).1).isSome = true)
    (halloc : allocBuf fuel s = Result.ok i s1) :
    ∃ sA, readPage fuel s file pageNo = Result.ok i sA ∧
      sA.log = s1.log ++ [IOEvent.read file pageNo] ∧
      (∀ j, 1 ≤ j → j ≤ k → ∃ sj,
        readPageTimes fuel file pageNo j s = some (List.replicate j i, sj) ∧
        (sj.desc i).pinCnt = j ∧ (sj.desc i).refbit = true ∧
        sj.log = sA.log ∧ sj.disk = sA.disk ∧ sj.bufPool = sA.bufPool) ∧
      ∃ sk s2, readPageTimes fuel file pageNo k s = some (List.replicate k i, sk) ∧
        unPinPageTimes file pageNo d k sk = some s2 ∧ (s2.desc i).pinCnt = 0 := by
  obtain ⟨p, sA, -, hread, -, hdir, hdesc, hlen, hlog⟩ :=
    readPage_miss_spec fuel s file pageNo i s1 hwf hmiss hfile halloc
  have hpin : (sA.desc i).pinCnt = 1 := by rw [hdesc]
  have href : (sA.desc i).refbit = true := by rw [hdesc]
  have key : ∀ j, 1 ≤ j → ∃ sj,
      readPageTimes fuel file pageNo j s = some (List.replicate j i, sj) ∧
      (sj.desc i).pinCnt = j ∧ (sj.desc i).refbit = true ∧
      sj.log = sA.log ∧ sj.disk = sA.disk ∧ sj.bufPool = sA.bufPool ∧
      sj.hashTable = sA.hashTable ∧ sj.bufDescTable.length = sA.bufDescTable.length := by
    intro j hj
    obtain ⟨m, rfl⟩ : ∃ m, j = m + 1 := ⟨j - 1, by omega⟩
    obtain ⟨sj, e1, e2, -, e3, e4, e5, e6, e7, e8⟩ :=
      readPageTimes_hit fuel file pageNo i m sA hdir hlen
    refine ⟨sj, ?_, by rw [e2, hpin]; omega, e3 href, e6, e7, e8, e4, e5⟩
    simp only [readPageTimes, hread, e1]
    simp [List.replicate_succ]
  refine ⟨sA, hread, hlog, ?_, ?_⟩
  · intro j hj _
    obtain ⟨sj, e1, e2, e3, e4, e5, e6, -, -⟩ := key j hj
    exact ⟨sj, e1, e2, e3, e4, e5, e6⟩
  · obtain ⟨sk, e1, e2, -, -, -, -, e7, e8⟩ := key k hk
    obtain ⟨s2, u1, u2⟩ := unPinPageTimes_hit file pageNo i d k sk (by rw [e7]; exact hdir)
      (by rw [e8]; exact hlen) (by rw [e2])
    exact ⟨sk, s2, e1, u1, by rw [u2, e2]; omega⟩

theorem RefStep.allPinned {s s1 : State} (h : RefStep s s1) (hp : s.AllPinned) :
    s1.AllPinned := by
  intro j hj
  rw [h.numBufs] at hj
  rw [h.valid j, core_pinCnt (h.core j)]
  exact hp j hj

/-- On a pinned frame the loop body either clears the refbit or counts the
frame in `bufPinned`. -/
theorem allocBufBody_pinned (bp : Nat) (s : State)
    (hp : 0 < (s.desc s.clockHand).pinCnt) :
    ((s.desc s.clockHand).refbit = true ∧
      allocBufBody bp s = Except.ok
        (bp, s.setDesc s.clockHand { s.desc s.clockHand with refbit := false })) ∨
    ((s.desc s.clockHand).refbit = false ∧
      allocBufBody bp s = Except.ok ((bp + 1) % 256, s)) := by
  have hne : (s.desc s.clockHand).pinCnt ≠ 0 := by omega
  cases hr : (s.desc s.clockHand).refbit with
  | true => left; refine ⟨rfl, ?_⟩; unfold allocBufBody; simp [hr]
  | false => right; refine ⟨rfl, ?_⟩; unfold allocBufBody; simp [hr, hne]

theorem RefStep.clearRef (s : State) (hwf : s.WF) :
    RefStep s (s.setDesc s.clockHand { s.desc s.clockHand with refbit := false }) := by
  have hlen : s.clockHand < s.bufDescTable.length := by rw [hwf.descLen]; exact hwf.hand
  refine ⟨rfl, rfl, rfl, by simp [State.setDesc], rfl, rfl, ?_, ?_, ?_⟩
  · intro j
    by_cases hj : j = s.clockHand
    · subst hj; rw [State.desc_setDesc_eq _ _ _ hlen]; rfl
    · rw [State.desc_setDesc_ne _ _ _ _ hj]
  · intro j
    by_cases hj : j = s.clockHand
    · subst hj; rw [State.desc_setDesc_eq _ _ _ hlen]
    · rw [State.desc_setDesc_ne _ _ _ _ hj]
  · intro j
    by_cases hj : j = s.clockHand
    · subst hj; rw [State.desc_setDesc_eq _ _ _ hlen]; simp
    · rw [State.desc_setDesc_ne _ _ _ _ hj]; exact id

/-- With 256 frames or more, all valid and pinned, the loop of `allocBuf`
never finishes: the 8-bit counter never reaches `numBufs`. -/
theorem allocBufLoop_diverge (fuel : Nat) : ∀ (bp : Nat) (s : State),
    s.WF → 256 ≤ s.numBufs → bp < 256 → s.AllPinned →
    allocBufLoop fuel bp s = Result.diverge := by
  induction fuel with
  | zero => intro bp s _ _ _ _; rfl
  | succ n ih =>
    intro bp s hwf hbig hbp hall
    have hv := (hall s.clockHand hwf.hand).1
    have hwa := advanceClock_WF s hwf
    have halla : (advanceClock s).AllPinned := (RefStep.advance s).allPinned hall
    have hpa := (halla (advanceClock s).clockHand hwa.hand).2
    simp only [allocBufLoop, hv, if_true]
    rcases allocBufBody_pinned bp (advanceClock s) hpa with ⟨-, hb⟩ | ⟨-, hb⟩
    · simp only [hb]
      have hstep := RefStep.clearRef (advanceClock s) hwa
      split
      · rename_i he
        change bp = s.numBufs at he
        omega
      · exact ih bp _ (hstep.preservesWF hwa hwa.hand) hbig hbp (hstep.allPinned halla)
    · simp only [hb]
      have hlt : (bp + 1) % 256 < 256 := Nat.mod_lt _ (by decide)
      split
      · rename_i he
        change (bp + 1) % 256 = s.numBufs at he
        omega
      · exact ih _ _ hwa hbig hlt halla

theorem allocBuf_diverge (fuel : Nat) (s : State) (hwf : s.WF) (hbig : 256 ≤ s.numBufs)
    (hall : s.AllPinned) : allocBuf fuel s = Result.diverge :=
  allocBufLoop_diverge fuel 0 (advanceClock s) (advanceClock_WF s hwf) hbig (by decide)
    ((RefStep.advance s).allPinned hall)

theorem countP_set_clear {α : Type} (p : α → Bool) (d dflt : α) (hd : p d = false) :
    ∀ (l : List α) (i : Nat), i < l.length → p (l.getD i dflt) = true →
      (l.set i d).countP p + 1 = l.countP p := by
  intro l
  induction l with
  | nil => intro i hi; simp at hi
  | cons a l ih =>
    intro i hi hp
    cases i with
    | zero =>
      simp only [List.getD_cons_zero] at hp
      simp [List.set, List.countP_cons, hd, hp]
    | succ j =>
      simp only [List.getD_cons_succ] at hp
      have hj : j < l.length := by simpa using hi
      have := ih j hj hp
      simp only [List.set, List.countP_cons]
      omega

theorem State.refCount_clearRef (s : State) (hlen : s.clockHand < s.bufDescTable.length)
    (hr : (s.desc s.clockHand).refbit = true) :
    (s.setDesc s.clockHand { s.desc s.clockHand with refbit := false }).refCount + 1
      = s.refCount := by
  have h := countP_set_clear (fun d : BufDesc => d.refbit)
    { s.desc s.clockHand with refbit := false } default rfl s.bufDescTable s.clockHand hlen hr
  exact h

/-- With fewer than 256 frames, all valid and pinned, the loop of `allocBuf`
throws `BufferExceededException` once it has fuel for one pass per set refbit
and one per frame still to count; only refbits and the hand have changed. -/
theorem allocBufLoop_exhausted (fuel : Nat) : ∀ (bp : Nat) (s : State),
    s.WF → s.numBufs < 256 → bp < s.numBufs → s.AllPinned →
    s.refCount + (s.numBufs - bp) ≤ fuel →
    ∃ s1, allocBufLoop fuel bp s = Result.throw Exc.BufferExceededException s1 ∧
      RefStep s s1 := by
  induction fuel with
  | zero => intro bp s _ _ hbp _ hf; omega
  | succ n ih =>
    intro bp s hwf hsmall hbp hall hf
    have hv := (hall s.clockHand hwf.hand).1
    have hwa := advanceClock_WF s hwf
    have halla : (advanceClock s).AllPinned := (RefStep.advance s).allPinned hall
    have hpa := (halla (advanceClock s).clockHand hwa.hand).2
    have hlen : (advanceClock s).clockHand < (advanceClock s).bufDescTable.length := by
      rw [hwa.descLen]; exact hwa.hand
    simp only [allocBufLoop, hv, if_true]
    rcases allocBufBody_pinned bp (advanceClock s) hpa with ⟨hr, hb⟩ | ⟨-, hb⟩
    · simp only [hb]
      have hstep := RefStep.clearRef (advanceClock s) hwa
      have hcnt := State.refCount_clearRef (advanceClock s) hlen hr
      have hrc : (advanceClock s).refCount = s.refCount := rfl
      split
      · rename_i he
        change bp = s.numBufs at he
        omega
      · obtain ⟨s1, h1, h2⟩ := ih bp _ (hstep.preservesWF hwa hwa.hand) hsmall hbp
          (hstep.allPinned halla) (by
            change _ + (s.numBufs - bp) ≤ n
            omega)
        exact ⟨s1, h1, ((RefStep.advance s).trans hstep).trans h2⟩
    · simp only [hb]
      have hmod : (bp + 1) % 256 = bp + 1 := Nat.mod_eq_of_lt (by omega)
      rw [hmod]
      split
      · exact ⟨_, rfl, RefStep.advance s⟩
      · rename_i he
        change ¬ (bp + 1 = s.numBufs) at he
        have hrc : (advanceClock s).refCount = s.refCount := rfl
        obtain ⟨s1, h1, h2⟩ := ih (bp + 1) _ hwa hsmall (by
            change bp + 1 < s.numBufs
            omega) halla (by
            change (advanceClock s).refCount + (s.numBufs - (bp + 1)) ≤ n
            omega)
        exact ⟨s1, h1, (RefStep.advance s).trans h2⟩

/-- With fewer than 256 frames, all valid and pinned, `allocBuf` throws
`BufferExceededException` and has changed only refbits and the hand. -/
theorem allocBuf_exhausted (fuel : Nat) (s : State) (hwf : s.WF) (hsmall : s.numBufs < 256)
    (hall : s.AllPinned) (hf : 2 * s.numBufs ≤ fuel) :
    ∃ s1, allocBuf fuel s = Result.throw Exc.BufferExceededException s1 ∧ RefStep s s1 := by
  have hc : s.refCount ≤ s.numBufs := by
    rw [← hwf.descLen]; exact List.countP_le_length _
  obtain ⟨s1, h1, h2⟩ := allocBufLoop_exhausted fuel 0 (advanceClock s) (advanceClock_WF s hwf)
    hsmall hwf.pos ((RefStep.advance s).allPinned hall) (by
      change s.refCount + (s.numBufs - 0) ≤ fuel
      omega)
  exact ⟨s1, h1, (RefStep.advance s).trans h2⟩

/-- A failed fetch is atomic in pools of fewer than 256 frames: with every
frame valid and pinned and (file, pageNo) not in the directory, `readPage`
throws `BufferExceededException`, and the pool contents, the directory, the
file store, the trace and every descriptor field but the refbit are as before. -/
theorem readPage_exhausted_small (fuel : Nat) (s : State) (file pageNo : Nat)
    (hwf : s.WF) (hsmall : s.numBufs < 256) (hall : s.AllPinned)
    (hmiss : s.hashTable.lookup file pageNo = none) (hf : 2 * s.numBufs ≤ fuel) :
    ∃ s1, readPage fuel s file pageNo = Result.throw Exc.BufferExceededException s1 ∧
      s1.bufPool = s.bufPool ∧ s1.hashTable = s.hashTable ∧ s1.disk = s.disk ∧
      s1.log = s.log ∧
      ∀ j, (s1.desc j).valid = (s.desc j).valid ∧ (s1.desc j).file = (s.desc j).file ∧
        (s1.desc j).pageNo = (s.desc j).pageNo ∧ (s1.desc j).pinCnt = (s.desc j).pinCnt ∧
        (s1.desc j).dirty = (s.desc j).dirty := by
  obtain ⟨s1, h1, h2⟩ := allocBuf_exhausted fuel s hwf hsmall hall hf
  refine ⟨s1, ?_, h2.pool, h2.table, h2.disk, h2.log, fun j =>
    ⟨h2.valid j, core_file (h2.core j), core_pageNo (h2.core j), core_pinCnt (h2.core j),
     core_dirty (h2.core j)⟩⟩
  unfold readPage
  rw [hmiss]
  simp only [h1]

/-! ### Fuel -/

/-- More fuel does not change an outcome that was reached: a return or a throw
of the loop of `allocBuf` is the same with any larger fuel. -/
theorem allocBufLoop_fuel_mono (fuel : Nat) : ∀ (bp : Nat) (s : State) (k : Nat),
    allocBufLoop fuel bp s ≠ Result.diverge →
    allocBufLoop (fuel + k) bp s = allocBufLoop fuel bp s := by
  induction fuel with
  | zero => intro bp s k h; exact absurd rfl h
  | succ n ih =>
    intro bp s k h
    have hk : n + 1 + k = (n + k) + 1 := by omega
    rw [hk]
    simp only [allocBufLoop] at h ⊢
    split
    · cases hb : allocBufBody bp (advanceClock s) with
      | error r => rfl
      | ok r =>
        obtain ⟨bp1, s1⟩ := r
        simp only [hb] at h ⊢
        split
        · rfl
        · rename_i hv hne
          rw [if_pos hv, if_neg hne] at h
          exact ih bp1 s1 k h
    · rfl

/-- More fuel does not change a return or a throw of `allocBuf`. -/
theorem allocBuf_fuel_mono (fuel k : Nat) (s : State)
    (h : allocBuf fuel s ≠ Result.diverge) : allocBuf (fuel + k) s = allocBuf fuel s :=
  allocBufLoop_fuel_mono fuel 0 (advanceClock s) k h

/-! ### Pin safety along runs without failed file reads -/

theorem RefStep.pinInv {s s1 : State} (h : RefStep s s1) (hinv : s.PinInv)
    (hh : s1.clockHand < s1.numBufs) : s1.PinInv := by
  refine ⟨h.preservesWF hinv.wf hh, ?_, ?_⟩
  · intro j hj hv
    rw [h.numBufs] at hj
    rw [core_pinCnt (h.core j)]
    exact hinv.invalidUnpinned j hj (by rw [← h.valid j]; exact hv)
  · intro e he
    rw [h.table] at he
    rw [h.numBufs, h.valid]
    exact hinv.dirValid e he

/-- When the loop of `allocBuf` throws, only refbits and the hand have changed. -/
theorem allocBufLoop_throw (fuel : Nat) : ∀ (bp : Nat) (s : State) (e : Exc) (s1 : State),
    s.WF → bp ≠ s.numBufs → allocBufLoop fuel bp s = Result.throw e s1 →
    RefStep s s1 ∧ s1.clockHand < s1.numBufs := by
  induction fuel with
  | zero => intro bp s e s1 _ _ h; simp [allocBufLoop] at h
  | succ n ih =>
    intro bp s e s1 hwf hbp h
    by_cases hv : (s.desc s.clockHand).valid = true
    · simp only [allocBufLoop, hv, if_true] at h
      have hwa := advanceClock_WF s hwf
      cases hb : allocBufBody bp (advanceClock s) with
      | error r =>
        obtain ⟨e1, s2⟩ := r
        simp only [hb, Result.throw.injEq] at h
        obtain ⟨-, rfl⟩ := h
        have : s2 = advanceClock s := by
          unfold allocBufBody at hb
          simp only at hb
          split at hb
          · simp at hb
          · split at hb
            · split at hb
              · split at hb
                · simp only [Except.error.injEq, Prod.mk.injEq] at hb
                  exact hb.2.symm
                · simp at hb
              · simp at hb
            · simp at hb
        subst this
        exact ⟨RefStep.advance s, hwa.hand⟩
      | ok r =>
        obtain ⟨bp1, s2⟩ := r
        simp only [hb] at h
        obtain ⟨hh, hcase⟩ := allocBufBody_ok hwa hb
        have hbp1 : bp1 = bp ∨ ((advanceClock s).desc (advanceClock s).clockHand).pinCnt ≠ 0 ∧
            s2 = advanceClock s := by
          unfold allocBufBody at hb
          simp only at hb
          split at hb
          · simp only [Except.ok.injEq, Prod.mk.injEq] at hb; exact Or.inl hb.1.symm
          · split at hb
            · split at hb
              · split at hb
                · simp at hb
                · simp only [Except.ok.injEq, Prod.mk.injEq] at hb; exact Or.inl hb.1.symm
              · simp only [Except.ok.injEq, Prod.mk.injEq] at hb; exact Or.inl hb.1.symm
            · rename_i hp
              simp only [Except.ok.injEq, Prod.mk.injEq] at hb
              exact Or.inr ⟨hp, hb.2.symm⟩
        split at h
        · rename_i he
          simp only [Result.throw.injEq] at h
          obtain ⟨-, rfl⟩ := h
          rcases hbp1 with rfl | ⟨-, rfl⟩
          · exfalso
            rcases hcase with hstep | ⟨hev, -⟩
            · exact hbp (he.trans hstep.numBufs)
            · exact hbp (he.trans hev.numBufs)
          · exact ⟨RefStep.advance s, hwa.hand⟩
        · rename_i he
          rcases hcase with hstep | ⟨-, hinv⟩
          · have hwf2 : s2.WF := hstep.preservesWF hwa (by rw [hh, hstep.numBufs]; exact hwa.hand)
            obtain ⟨h1, h2⟩ := ih bp1 s2 e s1 hwf2 he h
            exact ⟨((RefStep.advance s).trans hstep).trans h1, h2⟩
          · exfalso
            cases n with
            | zero => simp [allocBufLoop] at h
            | succ m => simp [allocBufLoop, hinv] at h
    · have hv1 : (s.desc s.clockHand).valid = false := by simpa using hv
      simp [allocBufLoop, hv1] at h


theorem allocBuf_throw {fuel : Nat} {s : State} {e : Exc} {s1 : State} (hwf : s.WF)
    (h : allocBuf fuel s = Result.throw e s1) : RefStep s s1 ∧ s1.clockHand < s1.numBufs := by
  have hne : 0 ≠ (advanceClock s).numBufs := Nat.ne_of_lt hwf.pos
  obtain ⟨h1, h2⟩ := allocBufLoop_throw fuel 0 (advanceClock s) e s1 (advanceClock_WF s hwf) hne h
  exact ⟨(RefStep.advance s).trans h1, h2⟩

theorem BufHashTbl.lookup_mem {h : BufHashTbl} {file pageNo i : Nat}
    (hl : h.lookup file pageNo = some i) : ∃ e, e ∈ h.entries ∧ e.2 = i := by
  simp only [BufHashTbl.lookup, Option.map_eq_some'] at hl
  obtain ⟨e, he, rfl⟩ := hl
  exact ⟨e, List.mem_of_find?_eq_some he, rfl⟩

theorem BufMgr_pinInv (n : Nat) (disk : List (Nat × Page)) (h0 : 0 < n) (h1 : n < 4294967296) :
    (BufMgr n disk).PinInv := by
  refine ⟨⟨h0, h1, by simp [BufMgr], by simp [BufMgr], ?_⟩, ?_, ?_⟩
  · simp only [BufMgr]; omega
  · intro j hj _
    have hj1 : j < n := hj
    simp [State.desc, BufMgr, List.getD_eq_getElem?_getD, List.getElem?_map,
      List.getElem?_range hj1, BufDesc.init]
  · intro e he
    simp [BufMgr] at he

theorem unPinPage_pinInv (fuel : Nat) (s : State) (file pageNo : Nat) (dirty : Bool)
    (hinv : s.PinInv) (r : State)
    (h : (Op.unPinPage file pageNo dirty).execPresent fuel s = some r) : r.PinInv := by
  simp only [Op.execPresent, unPinPage] at h
  cases hl : s.hashTable.lookup file pageNo with
  | none => simp only [hl, Option.some.injEq] at h; exact h ▸ hinv
  | some i =>
    obtain ⟨e, he, rfl⟩ := BufHashTbl.lookup_mem hl
    obtain ⟨hlt, hv⟩ := hinv.dirValid e he
    have hlen : e.2 < s.bufDescTable.length := by rw [hinv.wf.descLen]; exact hlt
    by_cases hp : (s.desc e.2).pinCnt = 0
    · simp only [hl, hp, if_true, Option.some.injEq] at h; exact h ▸ hinv
    · simp only [hl, hp, if_false, Option.some.injEq] at h
      subst h
      refine ⟨⟨hinv.wf.pos, hinv.wf.u32, by simp [State.setDesc, hinv.wf.descLen],
        hinv.wf.poolLen, hinv.wf.hand⟩, ?_, ?_⟩
      · intro j hj hjv
        by_cases hje : j = e.2
        · subst hje
          rw [State.desc_setDesc_eq _ _ _ hlen] at hjv
          simp only [hv] at hjv
          cases hjv
        · rw [State.desc_setDesc_ne _ _ _ _ hje] at hjv ⊢
          exact hinv.invalidUnpinned j hj hjv
      · intro e1 he1
        obtain ⟨hlt1, hv1⟩ := hinv.dirValid e1 he1
        refine ⟨hlt1, ?_⟩
        by_cases hje : e1.2 = e.2
        · rw [hje, State.desc_setDesc_eq _ _ _ hlen]; exact hv
        · rw [State.desc_setDesc_ne _ _ _ _ hje]; exact hv1


/-- The miss path of `readPage` when the file reports the page absent. -/
theorem readPage_miss_absent (fuel : Nat) (s : State) (file pageNo i : Nat) (s1 : State)
    (hmiss : s.hashTable.lookup file pageNo = none)
    (halloc : allocBuf fuel s = Result.ok i s1)
    (hp : (fileReadPage s1 file pageNo).1 = none) :
    readPage fuel s file pageNo =
      Result.throw Exc.InvalidPageException (fileReadPage s1 file pageNo).2 := by
  unfold readPage
  rw [hmiss]
  simp only [halloc]
  have : fileReadPage s1 file pageNo = (none, (fileReadPage s1 file pageNo).2) := by
    rw [← hp]
  rw [this]

theorem readPage_pinInv (fuel : Nat) (s : State) (file pageNo : Nat) (hinv : s.PinInv)
    (r : State) (h : (Op.readPage file pageNo).execPresent fuel s = some r) : r.PinInv := by
  simp only [Op.execPresent] at h
  cases hl : s.hashTable.lookup file pageNo with
  | some i =>
    rw [readPage_hit fuel s file pageNo i hl] at h
    simp only [Option.some.injEq] at h
    subst h
    obtain ⟨e, he, rfl⟩ := BufHashTbl.lookup_mem hl
    obtain ⟨hlt, hv⟩ := hinv.dirValid e he
    have hlen : e.2 < s.bufDescTable.length := by rw [hinv.wf.descLen]; exact hlt
    refine ⟨⟨hinv.wf.pos, hinv.wf.u32, by simp [State.setDesc, hinv.wf.descLen],
      hinv.wf.poolLen, hinv.wf.hand⟩, ?_, ?_⟩
    · intro j hj hjv
      by_cases hje : j = e.2
      · subst hje
        rw [State.desc_setDesc_eq _ _ _ hlen] at hjv
        simp only [hv] at hjv
        cases hjv
      · rw [State.desc_setDesc_ne _ _ _ _ hje] at hjv ⊢
        exact hinv.invalidUnpinned j hj hjv
    · intro e1 he1
      obtain ⟨hlt1, hv1⟩ := hinv.dirValid e1 he1
      refine ⟨hlt1, ?_⟩
      by_cases hje : e1.2 = e.2
      · rw [hje, State.desc_setDesc_eq _ _ _ hlen]; exact hv
      · rw [State.desc_setDesc_ne _ _ _ _ hje]; exact hv1
  | none =>
    cases hA : allocBuf fuel s with
    | diverge => simp [readPage, hl, hA] at h
    | throw e s1 =>
      simp only [readPage, hl, hA] at h
      split at h
      · cases h
      · simp only [Option.some.injEq] at h
        subst h
        obtain ⟨h1, h2⟩ := allocBuf_throw hinv.wf hA
        exact h1.pinInv hinv h2
    | ok i s1 =>
      have hok := allocBuf_ok hinv.wf hA
      have hwf1 := hok.resultWF hinv.wf
      have hi : i < s1.numBufs := by rw [hok.numBufs]; exact hok.lt
      cases hp : (fileReadPage s1 file pageNo).1 with
      | none =>
        rw [readPage_miss_absent fuel s file pageNo i s1 hl hA hp] at h
        simp at h
      | some p =>
        rw [readPage_miss_eq fuel s file pageNo i s1 p hl hA hp] at h
        simp only [Option.some.injEq] at h
        subst h
        have hlen : i < (({ ((fileReadPage s1 file pageNo).2.setPage i p) with
            hashTable := s1.hashTable.insert file pageNo i }) : State).bufDescTable.length := by
          simp [fileReadPage, State.setPage, hwf1.descLen, hi]
        have hother : ∀ j, j ≠ i →
            ((({ ((fileReadPage s1 file pageNo).2.setPage i p) with
              hashTable := s1.hashTable.insert file pageNo i }) : State).setDesc i
                ((s1.desc i).Set file pageNo)).desc j = s1.desc j := by
          intro j hj
          rw [State.desc_setDesc_ne _ _ _ _ hj]
          rfl
        refine ⟨⟨hwf1.pos, hwf1.u32, ?_, ?_, hwf1.hand⟩, ?_, ?_⟩
        · simp [fileReadPage, State.setPage, State.setDesc, hwf1.descLen]
        · simp [fileReadPage, State.setPage, State.setDesc, hwf1.poolLen]
        · intro j hj hjv
          by_cases hje : j = i
          · subst hje
            rw [State.desc_setDesc_eq _ _ _ hlen] at hjv
            simp [BufDesc.Set] at hjv
          · rw [hother j hje] at hjv ⊢
            rw [core_pinCnt (hok.core j)]
            exact hinv.invalidUnpinned j (hok.numBufs ▸ hj) (by rw [← hok.valid j hje]; exact hjv)
        · intro e he
          have hmem : e = ((file, pageNo), i) ∨ e ∈ s.hashTable.entries := by
            have he1 : e ∈ (s1.hashTable.insert file pageNo i).entries := he
            simp only [BufHashTbl.insert, BufHashTbl.remove, List.mem_cons, List.mem_filter] at he1
            rcases he1 with h1 | h1
            · exact Or.inl h1
            · exact Or.inr (hok.table ▸ h1.1)
          have hvi : ((({ ((fileReadPage s1 file pageNo).2.setPage i p) with
              hashTable := s1.hashTable.insert file pageNo i }) : State).setDesc i
                ((s1.desc i).Set file pageNo)).desc i = (s1.desc i).Set file pageNo :=
            State.desc_setDesc_eq _ _ _ hlen
          rcases hmem with rfl | hmem
          · exact ⟨hi, by rw [hvi]; rfl⟩
          · obtain ⟨hlt, hv⟩ := hinv.dirValid e hmem
            refine ⟨hok.numBufs ▸ hlt, ?_⟩
            by_cases hje : e.2 = i
            · rw [hje, hvi]; rfl
            · rw [hother e.2 hje, hok.valid e.2 hje]; exact hv

theorem runPresent_pinInv (fuel : Nat) (ops : List Op) : ∀ (s r : State), s.PinInv →
    runPresent fuel ops s = some r → r.PinInv := by
  induction ops with
  | nil => intro s r hinv h; simp only [runPresent, Option.some.injEq] at h; exact h ▸ hinv
  | cons op ops ih =>
    intro s r hinv h
    simp only [runPresent] at h
    cases hop : op.execPresent fuel s with
    | none => simp [hop] at h
    | some s1 =>
      simp only [hop] at h
      refine ih s1 r ?_ h
      cases op with
      | readPage f p => exact readPage_pinInv fuel s f p hinv s1 hop
      | unPinPage f p d => exact unPinPage_pinInv fuel s f p d hinv s1 hop
      | allocPage f pg => simp [Op.execPresent] at hop
      | flushFile f => simp [Op.execPresent] at hop
      | disposePage f p => simp [Op.execPresent] at hop

/-- Pin safety along every sequence of `readPage` and `unPinPage` calls on a
fresh pool in which the file never reports a requested page absent: the frame
`allocBuf` returns had `pinCnt = 0` before the call, and `allocBuf` leaves the
valid flag, file, page number, pin count, dirty flag and contents of every
pinned frame as they were. -/
theorem pin_safety_when_reads_succeed (fuel n : Nat) (disk : List (Nat × Page))
    (ops : List Op) (s : State) (i : Nat) (s1 : State)
    (h0 : 0 < n) (h1 : n < 4294967296)
    (hrun : runPresent fuel ops (BufMgr n disk) = some s)
    (h : allocBuf fuel s = Result.ok i s1) :
    (s.desc i).pinCnt = 0 ∧
    ∀ j, 0 < (s.desc j).pinCnt →
      (s1.desc j).valid = (s.desc j).valid ∧ (s1.desc j).core = (s.desc j).core ∧
      s1.page j = s.page j := by
  have hinv := runPresent_pinInv fuel ops _ s (BufMgr_pinInv n disk h0 h1) hrun
  have hok := allocBuf_ok hinv.wf h
  have hpin : (s.desc i).pinCnt = 0 := by
    cases hv : (s.desc i).valid with
    | true => exact hok.unpinned hv
    | false => exact hinv.invalidUnpinned i hok.lt hv
  refine ⟨hpin, fun j hj => ⟨hok.valid j ?_, hok.core j, State.page_eq_of_pool hok.pool j⟩⟩
  rintro rfl
  omega

/-! ### Concrete runs -/

theorem fullPool_desc (n j : Nat) (hj : j < n) :
    (fullPool n).desc j =
      { file := some 1, pageNo := j + 1, frameNo := j, pinCnt := 1, dirty := false,
        valid := true, refbit := true } := by
  simp [State.desc, fullPool, List.getD_eq_getElem?_getD, List.getElem?_map, List.getElem?_range hj]

theorem fullPool_WF (n : Nat) (h0 : 0 < n) (h1 : n < 4294967296) : (fullPool n).WF :=
  ⟨h0, h1, by simp [fullPool], by simp [fullPool], by simp only [fullPool]; omega⟩

theorem fullPool_allPinned (n : Nat) : (fullPool n).AllPinned := by
  intro j hj
  rw [fullPool_desc n j hj]
  exact ⟨rfl, Nat.one_pos⟩

theorem fullPool_lookup_none (n p : Nat) (hp : n < p) :
    (fullPool n).hashTable.lookup 1 p = none := by
  simp only [BufHashTbl.lookup, fullPool, Option.map_eq_none', List.find?_eq_none]
  intro e he
  simp only [List.mem_reverse, List.mem_map, List.mem_range] at he
  obtain ⟨i, hi, rfl⟩ := he
  simp
  omega

theorem partialPool_zero (n : Nat) (h0 : 0 < n) (h1 : n < 4294967296) :
    BufMgr n (fullPool n).disk = partialPool n 0 := by
  have hh : (n + 4294967295) % 4294967296 = n - 1 := by omega
  simp [BufMgr, partialPool, fullPool, hh, List.map_const', BufDesc.init]

theorem partialPool_full (n : Nat) (h0 : 0 < n) : partialPool n n = fullPool n := by
  have hne : n ≠ 0 := by omega
  simp only [partialPool, fullPool, hne, if_false]
  congr 1
  · apply List.map_congr_left
    intro i hi
    simp [List.mem_range.mp hi]
  · apply List.map_congr_left
    intro i hi
    simp [List.mem_range.mp hi]


theorem map_range_set {α : Type} (n k : Nat) (f g : Nat → α) (v : α) (hv : g k = v)
    (hne : ∀ i, i ≠ k → g i = f i) :
    ((List.range n).map f).set k v = (List.range n).map g := by
  apply List.ext_getElem?
  intro i
  rw [List.getElem?_set]
  by_cases hik : k = i
  · subst hik
    by_cases hkn : k < n
    · simp [hkn, List.getElem?_range hkn, hv]
    · have hnone : (List.range n)[k]? = none :=
        List.getElem?_eq_none (by rw [List.length_range]; omega)
      simp [hkn, hnone]
  · rw [if_neg hik]
    by_cases hin : i < n
    · simp [List.getElem?_range hin, hne i (Ne.symm hik)]
    · have hnone : (List.range n)[i]? = none :=
        List.getElem?_eq_none (by rw [List.length_range]; omega)
      simp [hnone]

theorem find?_range_succ_eq (n k : Nat) (hk : k < n) :
    (List.range n).find? (fun i => decide (i + 1 = k + 1)) = some k := by
  induction n with
  | zero => omega
  | succ n ih =>
    rw [List.range_succ, List.find?_append]
    by_cases hkn : k < n
    · rw [ih hkn]; rfl
    · have hkn1 : k = n := by omega
      subst hkn1
      have : (List.range k).find? (fun i => decide (i + 1 = k + 1)) = none := by
        rw [List.find?_eq_none]
        intro i hi
        have := List.mem_range.mp hi
        simp
        omega
      rw [this]
      simp

theorem partialPool_lookup_none (n k p : Nat) (hp : k < p) :
    (partialPool n k).hashTable.lookup 1 p = none := by
  simp only [BufHashTbl.lookup, partialPool, Option.map_eq_none', List.find?_eq_none]
  intro e he
  simp only [List.mem_reverse, List.mem_map, List.mem_range] at he
  obtain ⟨i, hi, rfl⟩ := he
  simp
  omega

theorem partialPool_advance_hand (n k : Nat) (hk : k < n) (h1 : n < 4294967296) :
    (advanceClock (partialPool n k)).clockHand = k := by
  simp only [advanceClock, partialPool]
  by_cases h0 : k = 0
  · subst h0
    have : (n - 1 + 1) = n := by omega
    simp [this, Nat.mod_eq_of_lt h1]
  · have h2 : k - 1 + 1 = k := by omega
    simp [h0, h2, Nat.mod_eq_of_lt (Nat.lt_trans hk h1), Nat.mod_eq_of_lt hk]

theorem partialPool_desc (n k j : Nat) (hj : j < n) :
    (partialPool n k).desc j =
      if j < k then
        { file := some 1, pageNo := j + 1, frameNo := j, pinCnt := 1, dirty := false,
          valid := true, refbit := true }
      else { BufDesc.init with frameNo := j, valid := false } := by
  simp [State.desc, partialPool, List.getD_eq_getElem?_getD, List.getElem?_map,
    List.getElem?_range hj]

theorem partialPool_alloc (n k : Nat) (hk : k < n) (h1 : n < 4294967296) :
    allocBuf 1 (partialPool n k) = Result.ok k (advanceClock (partialPool n k)) := by
  have hh := partialPool_advance_hand n k hk h1
  have hd : ((advanceClock (partialPool n k)).desc k).valid = false := by
    have : (advanceClock (partialPool n k)).desc k = (partialPool n k).desc k := rfl
    rw [this, partialPool_desc n k k hk]
    simp [BufDesc.init]
  simp only [allocBuf, allocBufLoop, hh, hd]
  simp

theorem partialPool_file (n k : Nat) (hk : k < n) :
    (fileReadPage (advanceClock (partialPool n k)) 1 (k + 1)).1 = some ⟨k + 1, 0⟩ := by
  simp only [fileReadPage, advanceClock, partialPool, List.find?_map]
  have : ((fun e : Nat × Page => decide (e.1 = 1 ∧ e.2.number = k + 1)) ∘
      fun i => (1, ({ number := i + 1, data := 0 } : Page))) =
      fun i => decide (i + 1 = k + 1) := by
    funext i
    simp
  rw [this, find?_range_succ_eq n k hk]
  rfl

/-- Fetching page `k + 1` into the pool that holds pages 1 to `k`. -/
theorem partialPool_readPage (n k : Nat) (hk : k < n) (h1 : n < 4294967296) :
    readPage 1 (partialPool n k) 1 (k + 1) = Result.ok k (partialPool n (k + 1)) := by
  rw [readPage_miss_eq 1 (partialPool n k) 1 (k + 1) k (advanceClock (partialPool n k))
    ⟨k + 1, 0⟩ (partialPool_lookup_none n k (k + 1) (Nat.lt_succ_self k))
    (partialPool_alloc n k hk h1) (partialPool_file n k hk)]
  congr 1
  have hd : (advanceClock (partialPool n k)).desc k = (partialPool n k).desc k := rfl
  simp only [State.setDesc, State.setPage, fileReadPage, hd, partialPool_desc n k k hk]
  simp only [advanceClock, partialPool, BufHashTbl.insert, BufHashTbl.remove, BufDesc.Set,
    BufDesc.init, State.mk.injEq, true_and]
  refine ⟨?_, ?_, ?_, ?_, ?_⟩
  · apply map_range_set
    · simp
    · intro i hi
      by_cases h : i < k
      · have : i < k + 1 := by omega
        simp [h, this]
      · have : ¬ i < k + 1 := by omega
        simp [h, this]
  · apply map_range_set
    · simp
    · intro i hi
      by_cases h : i < k
      · have : i < k + 1 := by omega
        simp [h, this]
      · have : ¬ i < k + 1 := by omega
        simp [h, this]
  · rw [List.range_succ, List.map_append, List.reverse_append]
    simp only [List.map_cons, List.map_nil, List.reverse_cons, List.reverse_nil, List.nil_append,
      List.singleton_append, BufHashTbl.mk.injEq, List.cons.injEq, true_and]
    rw [List.filter_eq_self]
    intro e he
    simp only [List.mem_reverse, List.mem_map, List.mem_range] at he
    obtain ⟨i, hi, rfl⟩ := he
    simp
    omega
  · have hh := partialPool_advance_hand n k hk h1
    simp only [advanceClock, partialPool] at hh
    rw [hh]
    simp
  · simp [List.range_succ]


theorem partialPool_run (n : Nat) (h1 : n < 4294967296) : ∀ (m k : Nat), k + m ≤ n →
    runOk 1 ((List.range' k m).map (fun i => Op.readPage 1 (i + 1))) (partialPool n k)
      = some (partialPool n (k + m)) := by
  intro m
  induction m with
  | zero => intro k _; rfl
  | succ m ih =>
    intro k hkm
    simp only [List.range'_succ, List.map_cons, runOk, Op.execOk,
      partialPool_readPage n k (by omega) h1]
    rw [ih (k + 1) (by omega)]
    congr 2
    omega

/-- The pool `fullPool n` is reachable: it is the state of a fresh pool of `n`
frames after pages 1 to `n` of a file have been fetched, every call returning
normally. -/
theorem fullPool_reached (n : Nat) (h0 : 0 < n) (h1 : n < 4294967296) :
    runOk 1 (fullOps n) (BufMgr n (fullPool n).disk) = some (fullPool n) := by
  rw [partialPool_zero n h0 h1, ← partialPool_full n h0]
  have := partialPool_run n h1 n 0 (by omega)
  simp only [Nat.zero_add] at this
  rw [← this, fullOps, List.range_eq_range']

/-- C3. Exhaustion is not detected in a pool of 256 frames: in the state
reached by fetching 256 pages into a fresh pool of 256 frames, all frames are
valid and pinned, and the loop of `allocBuf` is still running after any number
of passes, because the 8-bit counter `bufPinned` never equals `numBufs = 256`;
no `BufferExceededException` is thrown. -/
theorem allocBuf_diverges_on_256_pinned_frames :
    runOk 1 (fullOps 256) (BufMgr 256 (fullPool 256).disk) = some (fullPool 256) ∧
    (fullPool 256).numBufs = 256 ∧ (fullPool 256).AllPinned ∧
    ∀ fuel, allocBuf fuel (fullPool 256) = Result.diverge :=
  ⟨fullPool_reached 256 (by decide) (by decide), rfl, fullPool_allPinned 256, fun fuel =>
    allocBuf_diverge fuel (fullPool 256) (fullPool_WF 256 (by decide) (by decide))
      (Nat.le_refl 256) (fullPool_allPinned 256)⟩

/-- C8. A failed fetch in a pool of 256 frames, all valid and pinned (the state
reached by fetching 256 pages into a fresh pool), for a page that is not in the
directory: `readPage` does not fail with `BufferExceededException`, it does not
finish at all. -/
theorem readPage_diverges_on_256_pinned_frames :
    runOk 1 (fullOps 256) (BufMgr 256 (fullPool 256).disk) = some (fullPool 256) ∧
    (fullPool 256).AllPinned ∧ (fullPool 256).hashTable.lookup 1 1000 = none ∧
    ∀ fuel, readPage fuel (fullPool 256) 1 1000 = Result.diverge := by
  refine ⟨fullPool_reached 256 (by decide) (by decide), fullPool_allPinned 256,
    fullPool_lookup_none 256 1000 (by decide), fun fuel => ?_⟩
  unfold readPage
  rw [fullPool_lookup_none 256 1000 (by decide)]
  simp only [allocBuf_diverge fuel (fullPool 256) (fullPool_WF 256 (by decide) (by decide))
      (Nat.le_refl 256) (fullPool_allPinned 256)]

/-- C1. Pin safety is broken after a fetch of an absent page: in a pool of one
frame, fetch page 1, release it, fetch page 9 (absent: the frame is evicted,
its directory entry stays, the file read throws), fetch page 1 again (a hit on
the stale entry pins the invalid frame). Then `allocBuf` returns frame 0,
whose `pinCnt` is 1, and `readPage` of page 2 replaces the contents and the
page number of that pinned frame. -/
theorem pinned_frame_overwritten_after_failed_read :
    ∃ s0 s s1 s2,
      runOk 4 [Op.readPage 1 1, Op.unPinPage 1 1 false] (BufMgr 1 demoDisk) = some s0 ∧
      (∃ s01, readPage 4 s0 1 9 = Result.throw Exc.InvalidPageException s01 ∧
        readPage 4 s01 1 1 = Result.ok 0 s) ∧
      (s.desc 0).pinCnt = 1 ∧ s.page 0 = ⟨1, 11⟩ ∧
      allocBuf 4 s = Result.ok 0 s1 ∧
      readPage 4 s 1 2 = Result.ok 0 s2 ∧
      s2.page 0 = ⟨2, 12⟩ ∧ (s2.desc 0).pageNo = 2 :=
  ⟨_, _, _, _, rfl, ⟨_, rfl, rfl⟩, rfl, rfl, rfl, rfl, rfl, rfl⟩

/-- C2. Pool-exhausted is raised although a frame is evictable: in a pool of 3,
fetch pages 1, 2, 3, release 1, fetch 4 (into frame 0), release 4; every call
returns normally. Now frame 0 is valid with `pinCnt = 0`, yet `allocBuf`, a
missing `readPage` and `allocPage` all throw `BufferExceededException`: the scan
counts frame 2, clears the refbit of frame 0, counts frame 1 and counts frame 2
a second time, which brings `bufPinned` to 3. -/
theorem pool_exhausted_with_unpinned_frame :
    ∃ s s1,
      runOk 8 [Op.readPage 1 1, Op.readPage 1 2, Op.readPage 1 3, Op.unPinPage 1 1 false,
        Op.readPage 1 4, Op.unPinPage 1 4 false] (BufMgr 3 demoDisk) = some s ∧
      (s.desc 0).valid = true ∧ (s.desc 0).pinCnt = 0 ∧
      allocBuf 8 s = Result.throw Exc.BufferExceededException s1 ∧
      s.hashTable.lookup 1 5 = none ∧
      readPage 8 s 1 5 = Result.throw Exc.BufferExceededException s1 ∧
      (∃ s2, allocPage 8 s 1 ⟨6, 0⟩ = Result.throw Exc.BufferExceededException s2) :=
  ⟨_, _, rfl, rfl, rfl, rfl, rfl, rfl, ⟨_, rfl⟩⟩

/-- C4. Directory consistency is broken by an eviction: pool of 3, fetch pages
1, 2, 3, release all three, fetch page 4. Page 2 is evicted from frame 1 and
page 4 is resident there, but the directory still maps (file 1, page 2) to
frame 1, whose descriptor holds page 4. -/
theorem evicted_page_keeps_directory_entry :
    ∃ s,
      runOk 8 [Op.readPage 1 1, Op.readPage 1 2, Op.readPage 1 3, Op.unPinPage 1 1 false,
        Op.unPinPage 1 2 false, Op.unPinPage 1 3 false, Op.readPage 1 4]
        (BufMgr 3 demoDisk) = some s ∧
      s.hashTable.lookup 1 4 = some 1 ∧ (s.desc 1).valid = true ∧ (s.desc 1).pageNo = 4 ∧
      s.page 1 = ⟨4, 14⟩ ∧
      (s.desc 0).pageNo = 1 ∧ (s.desc 2).pageNo = 3 ∧
      s.hashTable.lookup 1 2 = some 1 :=
  ⟨_, rfl, rfl, rfl, rfl, rfl, rfl, rfl, rfl⟩

/-- C5. `readPage` can return a frame that holds another page: after the
eviction of page 2 from frame 1 in favour of page 4, `readPage(file 1, page 2)`
hits the stale directory entry and returns frame 1, whose descriptor and
contents are those of page 4. -/
theorem readPage_returns_frame_of_other_page :
    ∃ s s1,
      runOk 8 [Op.readPage 1 1, Op.readPage 1 2, Op.readPage 1 3, Op.unPinPage 1 1 false,
        Op.unPinPage 1 2 false, Op.unPinPage 1 3 false, Op.readPage 1 4]
        (BufMgr 3 demoDisk) = some s ∧
      readPage 8 s 1 2 = Result.ok 1 s1 ∧
      (s1.desc 1).file = some 1 ∧ (s1.desc 1).pageNo = 4 ∧ s1.page 1 = ⟨4, 14⟩ :=
  ⟨_, _, rfl, rfl, rfl, rfl, rfl⟩

/-- C10. `allocPage` reports the page number found behind the caller's `page`
pointer, not the number of the page the file allocated: the file allocates
page 6, the caller's pointer refers to a page numbered 7 (or 8), and the
output `pageNo`, the descriptor and the directory key are 7 (or 8) while the
frame holds page 6. -/
theorem allocPage_reports_number_behind_callers_pointer :
    (fileAllocatePage (BufMgr 1 demoDisk) 1).1 = ⟨6, 0⟩ ∧
    ∃ s1 s2,
      allocPage 4 (BufMgr 1 demoDisk) 1 ⟨7, 0⟩ = Result.ok (7, 0) s1 ∧
      s1.page 0 = ⟨6, 0⟩ ∧ (s1.desc 0).pageNo = 7 ∧
      s1.hashTable.lookup 1 7 = some 0 ∧ s1.hashTable.lookup 1 6 = none ∧
      allocPage 4 (BufMgr 1 demoDisk) 1 ⟨8, 0⟩ = Result.ok (8, 0) s2 ∧
      (s2.desc 0).pageNo = 8 :=
  ⟨rfl, _, _, rfl, rfl, rfl, rfl, rfl, rfl, rfl⟩

theorem demo_WF : (BufMgr 2 demoDisk).WF := ⟨by decide, by decide, rfl, rfl, by decide⟩

/-- C6 at a concrete input: a fresh pool of 2 frames, page 3 of file 1. -/
theorem readPage_miss_postcondition_witness :
    (BufMgr 2 demoDisk).WF ∧
    (BufMgr 2 demoDisk).hashTable.lookup 1 3 = none ∧
    ((fileReadPage (BufMgr 2 demoDisk) 1 3).1).isSome = true ∧
    allocBuf 4 (BufMgr 2 demoDisk) = Result.ok 0 (advanceClock (BufMgr 2 demoDisk)) ∧
    ∃ p s2, (fileReadPage (advanceClock (BufMgr 2 demoDisk)) 1 3).1 = some p ∧
      readPage 4 (BufMgr 2 demoDisk) 1 3 = Result.ok 0 s2 ∧
      s2.page 0 = p ∧
      s2.hashTable.lookup 1 3 = some 0 ∧
      s2.desc 0 = { file := some 1, pageNo := 3, frameNo := ((BufMgr 2 demoDisk).desc 0).frameNo,
                    pinCnt := 1, dirty := false, valid := true, refbit := true } :=
  ⟨demo_WF, rfl, rfl, rfl,
   readPage_miss_postcondition 4 (BufMgr 2 demoDisk) 1 3 0 (advanceClock (BufMgr 2 demoDisk)) demo_WF rfl rfl rfl⟩

/-- C7 at a concrete input: two fetches and two releases of page 3 of file 1 in
a fresh pool of 2 frames. -/
theorem pin_unpin_balance_witness :
    1 ≤ 2 ∧ (BufMgr 2 demoDisk).WF ∧
    (BufMgr 2 demoDisk).hashTable.lookup 1 3 = none ∧
    ((fileReadPage (BufMgr 2 demoDisk) 1 3).1).isSome = true ∧
    allocBuf 4 (BufMgr 2 demoDisk) = Result.ok 0 (advanceClock (BufMgr 2 demoDisk)) ∧
    ∃ sA, readPage 4 (BufMgr 2 demoDisk) 1 3 = Result.ok 0 sA ∧
      sA.log = (advanceClock (BufMgr 2 demoDisk)).log ++ [IOEvent.read 1 3] ∧
      (∀ j, 1 ≤ j → j ≤ 2 → ∃ sj,
        readPageTimes 4 1 3 j (BufMgr 2 demoDisk) = some (List.replicate j 0, sj) ∧
        (sj.desc 0).pinCnt = j ∧ (sj.desc 0).refbit = true ∧
        sj.log = sA.log ∧ sj.disk = sA.disk ∧ sj.bufPool = sA.bufPool) ∧
      ∃ sk s2, readPageTimes 4 1 3 2 (BufMgr 2 demoDisk) = some (List.replicate 2 0, sk) ∧
        unPinPageTimes 1 3 true 2 sk = some s2 ∧ (s2.desc 0).pinCnt = 0 :=
  ⟨by decide, demo_WF, rfl, rfl, rfl,
   pin_unpin_balance 4 2 (BufMgr 2 demoDisk) 1 3 true 0 (advanceClock (BufMgr 2 demoDisk))
     (by decide) demo_WF rfl rfl rfl⟩

theorem dirtyPool_WF : dirtyPool.WF := ⟨by decide, by decide, rfl, rfl, by decide⟩

/-- C9 at a concrete input: a pool of one frame holding a dirty, released
page; `allocBuf` evicts it and the trace gains exactly the write of the old
contents. -/
theorem allocBuf_write_back_witness :
    dirtyPool.WF ∧
    (∀ j, j < dirtyPool.numBufs → (dirtyPool.desc j).valid = false →
      (dirtyPool.desc j).dirty = false) ∧
    ∃ s1, allocBuf 4 dirtyPool = Result.ok 0 s1 ∧
      s1.log = [IOEvent.read 1 1, IOEvent.write 1 ⟨1, 99⟩] ∧
      (((dirtyPool.desc 0).valid = true ∧ (dirtyPool.desc 0).dirty = true →
        ∃ f, (dirtyPool.desc 0).file = some f ∧
          s1.log = dirtyPool.log ++ [IOEvent.write f (dirtyPool.page 0)] ∧
          s1.disk = (fileWritePage dirtyPool f (dirtyPool.page 0)).disk) ∧
      (¬ ((dirtyPool.desc 0).valid = true ∧ (dirtyPool.desc 0).dirty = true) →
        s1.log = dirtyPool.log ∧ s1.disk = dirtyPool.disk) ∧
      s1.bufPool = dirtyPool.bufPool) :=
  ⟨dirtyPool_WF, by decide, _, rfl, rfl,
   allocBuf_write_back 4 dirtyPool 0 _ dirtyPool_WF (by decide) rfl⟩

/-! ### flushFile -/

theorem BufHashTbl.remove_of_lookup_none (h : BufHashTbl) (file pageNo : Nat)
    (hl : h.lookup file pageNo = none) : h.remove file pageNo = h := by
  simp only [BufHashTbl.lookup, Option.map_eq_none', List.find?_eq_none] at hl
  cases h with
  | mk entries =>
    simp only [BufHashTbl.remove, BufHashTbl.mk.injEq]
    rw [List.filter_eq_self]
    intro e he
    have := hl e he
    simpa using this

theorem BufHashTbl.lookup_remove_self (h : BufHashTbl) (file pageNo : Nat) :
    (h.remove file pageNo).lookup file pageNo = none := by
  simp only [BufHashTbl.lookup, BufHashTbl.remove, Option.map_eq_none', List.find?_eq_none]
  intro e he
  have := (List.mem_filter.mp he).2
  simpa using this

theorem BufHashTbl.lookup_remove_other (h : BufHashTbl) (file pageNo f p : Nat)
    (hne : (f, p) ≠ (file, pageNo)) :
    (h.remove file pageNo).lookup f p = h.lookup f p := by
  simp only [BufHashTbl.lookup, BufHashTbl.remove]
  rw [find?_filter_of_imp]
  intro e he
  simp only [decide_eq_true_eq] at he ⊢
  rw [he]
  exact hne

theorem BufHashTbl.lookup_remove_none (h : BufHashTbl) (file pageNo f p : Nat)
    (hl : h.lookup f p = none) : (h.remove file pageNo).lookup f p = none := by
  simp only [BufHashTbl.lookup, BufHashTbl.remove, Option.map_eq_none',
    List.find?_eq_none] at hl ⊢
  intro e he
  exact hl e (List.mem_filter.mp he).1

theorem flushWrites_congr (s s1 : State) (file : Nat) (frames : List Nat)
    (hd : ∀ j, j ∈ frames → s1.desc j = s.desc j) (hp : s1.bufPool = s.bufPool) :
    flushWrites s1 file frames = flushWrites s file frames := by
  unfold flushWrites
  have hf : frames.filter (fun j => decide ((s1.desc j).file = some file) && (s1.desc j).dirty)
      = frames.filter (fun j => decide ((s.desc j).file = some file) && (s.desc j).dirty) := by
    apply List.filter_congr
    intro j hj
    rw [hd j hj]
  rw [hf]
  apply List.map_congr_left
  intro j _
  rw [State.page_eq_of_pool hp]

theorem flushFileLoop_step (file n frame : Nat) (s : State)
    (hf : (s.desc frame).file = some file) (hv : (s.desc frame).valid = true)
    (hp : (s.desc frame).pinCnt = 0) :
    flushFileLoop file (n + 1) frame s = flushFileLoop file n (frame + 1) (flushStep s file frame) := by
  simp [flushFileLoop, hf, hv, hp, flushStep]

theorem flushFileLoop_skip (file n frame : Nat) (s : State)
    (hf : (s.desc frame).file ≠ some file) :
    flushFileLoop file (n + 1) frame s = flushFileLoop file n (frame + 1) s := by
  simp [flushFileLoop, hf]

theorem flushStep_clean (s : State) (file frame : Nat)
    (hd : (s.desc frame).dirty = false) :
    flushStep s file frame =
      { s with
        bufDescTable := s.bufDescTable.set frame (s.desc frame).Clear
        hashTable := s.hashTable.remove file (s.desc frame).pageNo } := by
  simp only [flushStep, hd, Bool.false_eq_true, if_false]
  rfl

theorem flushStep_dirty (s : State) (file frame : Nat) (hlen : frame < s.bufDescTable.length)
    (hd : (s.desc frame).dirty = true) :
    flushStep s file frame =
      { s with
        bufDescTable := s.bufDescTable.set frame (s.desc frame).Clear
        hashTable := s.hashTable.remove file (s.desc frame).pageNo
        disk := (fileWritePage s file (s.page frame)).disk
        log := s.log ++ [IOEvent.write file (s.page frame)] } := by
  have h1 : ((fileWritePage s file (s.page frame)).setDesc frame
      { s.desc frame with dirty := false }).desc frame = { s.desc frame with dirty := false } :=
    State.desc_setDesc_eq _ _ _ hlen
  simp only [flushStep, hd, if_true]
  have h2 : ∀ (t : State) (ht : BufHashTbl), ({ t with hashTable := ht } : State).desc frame
      = t.desc frame := fun _ _ => rfl
  rw [h2, h1]
  simp only [State.setDesc, fileWritePage, List.set_set, BufDesc.Clear]
  simp [State.desc, List.getD_eq_getElem?_getD, hlen]

theorem flushStep_spec (s : State) (file frame : Nat) (hlen : frame < s.bufDescTable.length) :
    (flushStep s file frame).numBufs = s.numBufs ∧
    (flushStep s file frame).bufPool = s.bufPool ∧
    (flushStep s file frame).clockHand = s.clockHand ∧
    (flushStep s file frame).bufDescTable.length = s.bufDescTable.length ∧
    (flushStep s file frame).desc frame = (s.desc frame).Clear ∧
    (∀ j, j ≠ frame → (flushStep s file frame).desc j = s.desc j) ∧
    (flushStep s file frame).log = s.log ++
      (if (s.desc frame).dirty then [IOEvent.write file (s.page frame)] else []) ∧
    (flushStep s file frame).hashTable = s.hashTable.remove file (s.desc frame).pageNo := by
  have hset : ∀ (t : State), t.bufDescTable = s.bufDescTable.set frame (s.desc frame).Clear →
      t.desc frame = (s.desc frame).Clear ∧ ∀ j, j ≠ frame → t.desc j = s.desc j := by
    intro t ht
    constructor
    · simp [State.desc, ht, List.getD_eq_getElem?_getD, hlen]
    · intro j hj
      simp [State.desc, ht, List.getD_eq_getElem?_getD, List.getElem?_set_ne (Ne.symm hj)]
  cases hd : (s.desc frame).dirty with
  | false =>
    rw [flushStep_clean s file frame hd]
    refine ⟨rfl, rfl, rfl, by simp, (hset _ rfl).1, (hset _ rfl).2, by simp, rfl⟩
  | true =>
    rw [flushStep_dirty s file frame hlen hd]
    refine ⟨rfl, rfl, rfl, by simp, (hset _ rfl).1, (hset _ rfl).2, by simp, rfl⟩


theorem flushWrites_cons (s : State) (file i : Nat) (frames : List Nat) :
    flushWrites s file (i :: frames) =
      (if (s.desc i).file = some file ∧ (s.desc i).dirty = true
        then [IOEvent.write file (s.page i)] else []) ++ flushWrites s file frames := by
  unfold flushWrites
  by_cases h : (s.desc i).file = some file ∧ (s.desc i).dirty = true
  · simp [List.filter_cons, h]
  · have : (decide ((s.desc i).file = some file) && (s.desc i).dirty) = false := by
      simpa using h
    simp [List.filter_cons, this, h]

/-- The contract of the loop of `flushFile` when every frame that names the
file is valid and not pinned: it returns normally. -/
theorem flushFileLoop_ok (file : Nat) : ∀ (k i : Nat) (s : State),
    i + k ≤ s.bufDescTable.length →
    (∀ j, i ≤ j → j < i + k → (s.desc j).file = some file →
      (s.desc j).valid = true ∧ (s.desc j).pinCnt = 0) →
    ∃ s1, flushFileLoop file k i s = Result.ok () s1 ∧ FlushOk s file i k s1 := by
  intro k
  induction k with
  | zero =>
    intro i s _ _
    refine ⟨s, rfl, rfl, rfl, rfl, rfl, ?_, fun _ _ => rfl, ?_, ?_, fun _ _ _ => rfl,
      fun _ _ h => h⟩
    · intro j h1 h2; omega
    · simp [flushWrites]
    · intro j h1 h2; omega
  | succ k ih =>
    intro i s hlen hall
    by_cases hf : (s.desc i).file = some file
    · obtain ⟨hv, hp⟩ := hall i (Nat.le_refl i) (by omega) hf
      rw [flushFileLoop_step file k i s hf hv hp]
      obtain ⟨e1, e2, e3, e4, e5, e6, e7, e8⟩ := flushStep_spec s file i (by omega)
      have hsame : ∀ j, i + 1 ≤ j → (flushStep s file i).desc j = s.desc j :=
        fun j hj => e6 j (by omega)
      obtain ⟨s1, hrun, hok⟩ := ih (i + 1) (flushStep s file i) (by rw [e4]; omega) (by
        intro j h1 h2 h3
        rw [hsame j h1] at h3 ⊢
        exact hall j (by omega) (by omega) h3)
      refine ⟨s1, hrun, hok.numBufs.trans e1, hok.pool.trans e2, hok.hand.trans e3,
        hok.descLen.trans e4, ?_, ?_, ?_, ?_, ?_, ?_⟩
      · intro j h1 h2 h3
        by_cases hji : j = i
        · subst hji
          rw [hok.kept j (by omega), e5]
        · have hj1 : i + 1 ≤ j := by omega
          rw [hok.cleared j hj1 (by omega) (by rw [hsame j hj1]; exact h3), hsame j hj1]
      · intro j hj
        have hji : j ≠ i := by
          rintro rfl
          exact hj ⟨Nat.le_refl _, by omega, hf⟩
        rw [hok.kept j (by
          rintro ⟨h1, h2, h3⟩
          rw [e6 j hji] at h3
          exact hj ⟨by omega, by omega, h3⟩), e6 j hji]
      · rw [hok.log, e7, List.range'_succ, flushWrites_cons, List.append_assoc]
        congr 1
        rw [flushWrites_congr s (flushStep s file i) file _ (by
          intro j hj
          have := (List.mem_range'_1.mp hj).1
          exact hsame j this) e2]
        simp [hf]
      · intro j h1 h2 h3
        by_cases hji : j = i
        · subst hji
          apply hok.dirNone
          rw [e8]
          exact BufHashTbl.lookup_remove_self _ _ _
        · have hj1 : i + 1 ≤ j := by omega
          have := hok.dirGone j hj1 (by omega) (by rw [hsame j hj1]; exact h3)
          rw [hsame j hj1] at this
          exact this
      · intro f p hne
        rw [hok.dirKept f p (by
          intro j h1 h2 h3
          rw [hsame j h1] at h3 ⊢
          exact hne j (by omega) (by omega) h3), e8]
        exact BufHashTbl.lookup_remove_other _ _ _ _ _ (hne i (Nat.le_refl i) (by omega) hf)
      · intro f p hnone
        apply hok.dirNone
        rw [e8]
        exact BufHashTbl.lookup_remove_none _ _ _ _ _ hnone
    · rw [flushFileLoop_skip file k i s hf]
      obtain ⟨s1, hrun, hok⟩ := ih (i + 1) s (by omega) (by
        intro j h1 h2 h3
        exact hall j (by omega) (by omega) h3)
      refine ⟨s1, hrun, hok.numBufs, hok.pool, hok.hand, hok.descLen, ?_, ?_, ?_, ?_, ?_,
        hok.dirNone⟩
      · intro j h1 h2 h3
        have hji : j ≠ i := by rintro rfl; exact hf h3
        exact hok.cleared j (by omega) (by omega) h3
      · intro j hj
        exact hok.kept j (by
          rintro ⟨h1, h2, h3⟩
          exact hj ⟨by omega, by omega, h3⟩)
      · rw [hok.log, List.range'_succ, flushWrites_cons]
        simp [hf]
      · intro j h1 h2 h3
        have hji : j ≠ i := by rintro rfl; exact hf h3
        exact hok.dirGone j (by omega) (by omega) h3
      · intro f p hne
        exact hok.dirKept f p (by
          intro j h1 h2 h3
          exact hne j (by omega) (by omega) h3)

/-- The contract of `flushFile` when every frame that names the file is valid
and not pinned. -/
theorem flushFile_ok (s : State) (file : Nat) (hwf : s.WF)
    (hall : ∀ j, j < s.numBufs → (s.desc j).file = some file →
      (s.desc j).valid = true ∧ (s.desc j).pinCnt = 0) :
    ∃ s1, flushFile s file = Result.ok () s1 ∧ FlushOk s file 0 s.numBufs s1 :=
  flushFileLoop_ok file s.numBufs 0 s (by rw [hwf.descLen]; omega) (by
    intro j _ h2 h3
    exact hall j (by omega) h3)

/-! ### The destructor -/

theorem FlushOk.keepsWF {s s1 : State} {file i k : Nat} (h : FlushOk s file i k s1)
    (hwf : s.WF) : s1.WF :=
  ⟨h.numBufs ▸ hwf.pos, h.numBufs ▸ hwf.u32, by rw [h.descLen, h.numBufs, hwf.descLen],
   by rw [h.pool, h.numBufs, hwf.poolLen], by rw [h.hand, h.numBufs]; exact hwf.hand⟩

theorem FlushOk.desc_cases {s s1 : State} {file : Nat} (h : FlushOk s file 0 s.numBufs s1)
    (j : Nat) (hj : j < s.numBufs) :
    ((s.desc j).file = some file ∧ s1.desc j = (s.desc j).Clear) ∨
    ((s.desc j).file ≠ some file ∧ s1.desc j = s.desc j) := by
  by_cases hf : (s.desc j).file = some file
  · exact Or.inl ⟨hf, h.cleared j (Nat.zero_le j) (by omega) hf⟩
  · exact Or.inr ⟨hf, h.kept j (fun hh => hf hh.2.2)⟩

theorem FlushOk.quiescent {s s1 : State} {file : Nat} (h : FlushOk s file 0 s.numBufs s1)
    (hq : s.Quiescent) : s1.Quiescent := by
  constructor
  · intro j hj hv
    rw [h.numBufs] at hj
    rcases h.desc_cases j hj with ⟨-, e⟩ | ⟨-, e⟩
    · rw [e] at hv; simp [BufDesc.Clear] at hv
    · rw [e] at hv ⊢; exact hq.unpinned j hj hv
  · intro j hj hv
    rw [h.numBufs] at hj
    rcases h.desc_cases j hj with ⟨-, e⟩ | ⟨-, e⟩
    · rw [e]; rfl
    · rw [e] at hv ⊢; exact hq.empty j hj hv

/-- A flush of the file of a valid frame splits the owed writes: the ones it
issues, and the ones still owed afterwards. -/
theorem pendingWrites_split {s s1 : State} {file : Nat}
    (h : FlushOk s file 0 s.numBufs s1) (hq : s.Quiescent) :
    List.Perm (flushWrites s file (List.range' 0 s.numBufs) ++ pendingWrites s1)
      (pendingWrites s) := by
  have hA : flushWrites s file (List.range' 0 s.numBufs) =
      (((List.range s.numBufs).filter (fun j => (s.desc j).valid && (s.desc j).dirty)).filter
        (fun j => decide ((s.desc j).file = some file))).map
        (fun j => IOEvent.write ((s.desc j).file.getD 0) (s.page j)) := by
    unfold flushWrites
    rw [← List.range_eq_range', List.filter_filter]
    have hfl : (List.range s.numBufs).filter
        (fun j => decide ((s.desc j).file = some file) && (s.desc j).dirty) =
        (List.range s.numBufs).filter (fun j => decide ((s.desc j).file = some file) &&
          ((s.desc j).valid && (s.desc j).dirty)) := by
      apply List.filter_congr
      intro j hj
      have hj1 := List.mem_range.mp hj
      by_cases hf : (s.desc j).file = some file
      · have hv : (s.desc j).valid = true := by
          cases hv : (s.desc j).valid with
          | true => rfl
          | false => rw [hq.empty j hj1 hv] at hf; cases hf
        simp [hf, hv]
      · simp [hf]
    rw [hfl]
    apply List.map_congr_left
    intro j hj
    have hf := (List.mem_filter.mp hj).2
    simp only [Bool.and_eq_true, decide_eq_true_eq] at hf
    rw [hf.1]; rfl
  have hB : pendingWrites s1 =
      (((List.range s.numBufs).filter (fun j => (s.desc j).valid && (s.desc j).dirty)).filter
        (fun j => !decide ((s.desc j).file = some file))).map
        (fun j => IOEvent.write ((s.desc j).file.getD 0) (s.page j)) := by
    unfold pendingWrites
    rw [h.numBufs, List.filter_filter]
    have hfl : (List.range s.numBufs).filter (fun j => (s1.desc j).valid && (s1.desc j).dirty) =
        (List.range s.numBufs).filter (fun j => !decide ((s.desc j).file = some file) &&
          ((s.desc j).valid && (s.desc j).dirty)) := by
      apply List.filter_congr
      intro j hj
      rcases h.desc_cases j (List.mem_range.mp hj) with ⟨hf, e⟩ | ⟨hf, e⟩
      · rw [e]; simp [hf, BufDesc.Clear]
      · rw [e]; simp [hf]
    rw [hfl]
    apply List.map_congr_left
    intro j hj
    have hm := List.mem_filter.mp hj
    have hf : (s.desc j).file ≠ some file := by
      have := hm.2
      simp only [Bool.and_eq_true, Bool.not_eq_true', decide_eq_false_iff_not] at this
      exact this.1
    rw [h.kept j (fun hh => hf hh.2.2), State.page_eq_of_pool h.pool]
  rw [hA, hB, ← List.map_append]
  exact (List.filter_append_perm _ _).map _


theorem pendingWrites_nil (s : State)
    (h : ∀ j, j < s.numBufs → (s.desc j).valid = false) : pendingWrites s = [] := by
  unfold pendingWrites
  rw [List.map_eq_nil_iff, List.filter_eq_nil_iff]
  intro j hj
  simp [h j (List.mem_range.mp hj)]

/-- The flush loop of the destructor on a quiescent pool, from frame `i` on. -/
theorem destructorLoop_ok : ∀ (k i : Nat) (s : State), s.WF → s.Quiescent →
    i + k = s.numBufs → (∀ j, j < i → (s.desc j).valid = false) →
    ∃ s1 L, destructorLoop k i s = Result.ok () s1 ∧
      s1.numBufs = s.numBufs ∧ s1.bufPool = s.bufPool ∧
      (∀ j, j < s.numBufs → (s1.desc j).valid = false) ∧
      s1.log = s.log ++ L ∧ List.Perm L (pendingWrites s) := by
  intro k
  induction k with
  | zero =>
    intro i s _ _ hik hprev
    refine ⟨s, [], rfl, rfl, rfl, fun j hj => hprev j (by omega), by simp, ?_⟩
    rw [pendingWrites_nil s (fun j hj => hprev j (by omega))]
  | succ k ih =>
    intro i s hwf hq hik hprev
    cases hv : (s.desc i).valid with
    | false =>
      obtain ⟨s1, L, h1, h2, h3, h4, h5, h6⟩ := ih (i + 1) s hwf hq (by omega) (by
        intro j hj
        by_cases hji : j = i
        · rw [hji]; exact hv
        · exact hprev j (by omega))
      refine ⟨s1, L, ?_, h2, h3, h4, h5, h6⟩
      simp only [destructorLoop, hv, Bool.false_eq_true, if_false]
      exact h1
    | true =>
      obtain ⟨-, f, hf⟩ := hq.unpinned i (by omega) hv
      have hall : ∀ j, j < s.numBufs → (s.desc j).file = some f →
          (s.desc j).valid = true ∧ (s.desc j).pinCnt = 0 := by
        intro j hj hjf
        have hjv : (s.desc j).valid = true := by
          cases hjv : (s.desc j).valid with
          | true => rfl
          | false => rw [hq.empty j hj hjv] at hjf; cases hjf
        exact ⟨hjv, (hq.unpinned j hj hjv).1⟩
      obtain ⟨s1, hrun, hok⟩ := flushFile_ok s f hwf hall
      obtain ⟨s2, L, h1, h2, h3, h4, h5, h6⟩ := ih (i + 1) s1 (hok.keepsWF hwf)
        (hok.quiescent hq) (by rw [hok.numBufs]; omega) (by
        intro j hj
        rcases hok.desc_cases j (by omega) with ⟨-, e⟩ | ⟨hne, e⟩
        · rw [e]; rfl
        · rw [e]
          by_cases hji : j = i
          · rw [hji] at hne; exact absurd hf hne
          · exact hprev j (by omega))
      refine ⟨s2, flushWrites s f (List.range' 0 s.numBufs) ++ L, ?_, h2.trans hok.numBufs,
        h3.trans hok.pool, ?_, ?_, ?_⟩
      · simp only [destructorLoop, hv, if_true, hf, hrun]
        exact h1
      · intro j hj
        exact h4 j (by rw [hok.numBufs]; exact hj)
      · rw [h5, hok.log, List.append_assoc]
      · exact (List.Perm.append_left _ h6).trans (pendingWrites_split hok hq)

/-- Teardown of a quiescent pool: the flush loop of the destructor returns
normally, no frame is valid afterwards, the pool contents are untouched, and
the trace has grown by exactly the owed writes, each once, in some order. -/
theorem destructor_ok (s : State) (hwf : s.WF) (hq : s.Quiescent) :
    ∃ s1 L, destructor s = Result.ok () s1 ∧
      s1.numBufs = s.numBufs ∧ s1.bufPool = s.bufPool ∧
      (∀ j, j < s.numBufs → (s1.desc j).valid = false) ∧
      s1.log = s.log ++ L ∧ List.Perm L (pendingWrites s) :=
  destructorLoop_ok s.numBufs 0 s hwf hq (by omega) (by intro j hj; omega)

/-! ### disposePage and unPinPage -/

/-- C11. Disposing a page that is not in the directory: `disposePage` returns
normally, the descriptors, the pool, the clock hand and the directory are as
before, and the trace gains exactly one `deletePage(pageNo)` request. -/
theorem disposePage_not_resident (s : State) (file pageNo : Nat)
    (hmiss : s.hashTable.lookup file pageNo = none) :
    ∃ s1, disposePage s file pageNo = Result.ok () s1 ∧
      s1.bufDescTable = s.bufDescTable ∧ s1.bufPool = s.bufPool ∧
      s1.clockHand = s.clockHand ∧ s1.hashTable = s.hashTable ∧
      s1.numBufs = s.numBufs ∧
      s1.log = s.log ++ [IOEvent.delete file pageNo] := by
  refine ⟨_, rfl, ?_, ?_, ?_, ?_, ?_, ?_⟩
  all_goals simp [hmiss, fileDeletePage, BufHashTbl.remove_of_lookup_none]

/-- C12. Disposing a page the directory maps to frame `i`: `disposePage` returns
normally, descriptor `i` is reset to the empty state (not valid, `pinCnt = 0`,
not dirty, refbit clear, no file), a lookup of (file, pageNo) misses, the trace
gains the `deletePage(pageNo)` request and nothing else (no write-back), and
every other descriptor and the pool contents are as before. -/
theorem disposePage_resident (s : State) (file pageNo i : Nat)
    (hlen : i < s.bufDescTable.length)
    (hhit : s.hashTable.lookup file pageNo = some i) :
    ∃ s1, disposePage s file pageNo = Result.ok () s1 ∧
      (s1.desc i).valid = false ∧ (s1.desc i).pinCnt = 0 ∧ (s1.desc i).dirty = false ∧
      (s1.desc i).refbit = false ∧ (s1.desc i).file = none ∧
      s1.hashTable.lookup file pageNo = none ∧
      s1.log = s.log ++ [IOEvent.delete file pageNo] ∧
      (∀ j, j ≠ i → s1.desc j = s.desc j) ∧
      s1.bufPool = s.bufPool ∧ s1.clockHand = s.clockHand := by
  have hd : ∀ j, (fileDeletePage ({ (s.setDesc i (s.desc i).Clear) with
      hashTable := (s.setDesc i (s.desc i).Clear).hashTable.remove file pageNo }) file
        pageNo).desc j = (s.setDesc i (s.desc i).Clear).desc j := fun _ => rfl
  refine ⟨fileDeletePage ({ (s.setDesc i (s.desc i).Clear) with
      hashTable := (s.setDesc i (s.desc i).Clear).hashTable.remove file pageNo }) file pageNo,
    ?_, ?_, ?_, ?_, ?_, ?_, ?_, ?_, ?_, ?_, ?_⟩
  · simp [disposePage, hhit]
  · rw [hd, State.desc_setDesc_eq _ _ _ hlen]; rfl
  · rw [hd, State.desc_setDesc_eq _ _ _ hlen]; rfl
  · rw [hd, State.desc_setDesc_eq _ _ _ hlen]; rfl
  · rw [hd, State.desc_setDesc_eq _ _ _ hlen]; rfl
  · rw [hd, State.desc_setDesc_eq _ _ _ hlen]; rfl
  · exact BufHashTbl.lookup_remove_self _ _ _
  · rfl
  · intro j hj
    rw [hd, State.desc_setDesc_ne _ _ _ _ hj]
  · rfl
  · rfl

/-- C13. Releasing a page that is not in the directory: for either value of
the dirty flag `unPinPage` returns normally and the whole state (descriptors,
directory, clock hand, pool, file store and trace) is as before. -/
theorem unPinPage_not_resident (s : State) (file pageNo : Nat) (dirty : Bool)
    (hmiss : s.hashTable.lookup file pageNo = none) :
    unPinPage s file pageNo dirty = Result.ok () s := by
  simp [unPinPage, hmiss]

/-- C14. Releasing a page the directory maps to a frame whose `pinCnt` is 0:
`unPinPage` throws `PageNotPinnedException` and the whole state is as before
(`pinCnt` stays 0, the dirty flag is not touched). -/
theorem unPinPage_not_pinned (s : State) (file pageNo i : Nat) (dirty : Bool)
    (hhit : s.hashTable.lookup file pageNo = some i)
    (hpin : (s.desc i).pinCnt = 0) :
    unPinPage s file pageNo dirty = Result.throw Exc.PageNotPinnedException s := by
  simp [unPinPage, hhit, hpin]

/-- C15. Releasing a page the directory maps to frame `i` with `pinCnt = c > 0`:
`unPinPage` returns normally, frame `i` has `pinCnt = c - 1` and dirty flag
`old dirty || d`; its valid flag, refbit, file and page number, every other
descriptor, the directory, the clock hand, the pool, the file store and the
trace are as before. -/
theorem unPinPage_effect (s : State) (file pageNo i c : Nat) (d : Bool)
    (hlen : i < s.bufDescTable.length)
    (hhit : s.hashTable.lookup file pageNo = some i)
    (hc : (s.desc i).pinCnt = c) (hpos : 0 < c) :
    ∃ s1, unPinPage s file pageNo d = Result.ok () s1 ∧
      (s1.desc i).pinCnt = c - 1 ∧
      (s1.desc i).dirty = ((s.desc i).dirty || d) ∧
      (s1.desc i).valid = (s.desc i).valid ∧ (s1.desc i).refbit = (s.desc i).refbit ∧
      (s1.desc i).file = (s.desc i).file ∧ (s1.desc i).pageNo = (s.desc i).pageNo ∧
      (∀ j, j ≠ i → s1.desc j = s.desc j) ∧
      s1.hashTable = s.hashTable ∧ s1.clockHand = s.clockHand ∧
      s1.bufPool = s.bufPool ∧ s1.disk = s.disk ∧ s1.log = s.log := by
  have hne : (s.desc i).pinCnt ≠ 0 := by omega
  refine ⟨_, unPinPage_hit s file pageNo i d hhit hne, ?_, ?_, ?_, ?_, ?_, ?_, ?_,
    rfl, rfl, rfl, rfl, rfl⟩
  · rw [State.desc_setDesc_eq _ _ _ hlen, ← hc]
  · rw [State.desc_setDesc_eq _ _ _ hlen]
  · rw [State.desc_setDesc_eq _ _ _ hlen]
  · rw [State.desc_setDesc_eq _ _ _ hlen]
  · rw [State.desc_setDesc_eq _ _ _ hlen]
  · rw [State.desc_setDesc_eq _ _ _ hlen]
  · intro j hj
    rw [State.desc_setDesc_ne _ _ _ _ hj]

/-! ### Concrete runs of release, dispose, flush and teardown -/

/-- C11 at a concrete input: a fresh pool of 2 frames, page 3 of file 1. -/
theorem disposePage_not_resident_witness :
    (BufMgr 2 demoDisk).hashTable.lookup 1 3 = none ∧
    ∃ s1, disposePage (BufMgr 2 demoDisk) 1 3 = Result.ok () s1 ∧
      s1.bufDescTable = (BufMgr 2 demoDisk).bufDescTable ∧
      s1.bufPool = (BufMgr 2 demoDisk).bufPool ∧
      s1.clockHand = (BufMgr 2 demoDisk).clockHand ∧
      s1.hashTable = (BufMgr 2 demoDisk).hashTable ∧
      s1.numBufs = (BufMgr 2 demoDisk).numBufs ∧
      s1.log = (BufMgr 2 demoDisk).log ++ [IOEvent.delete 1 3] :=
  ⟨rfl, disposePage_not_resident (BufMgr 2 demoDisk) 1 3 rfl⟩

/-- C12 at a concrete input: the one-frame pool holding page 1 of file 1,
dirty; the page is discarded without a write. -/
theorem disposePage_resident_witness :
    0 < dirtyPool.bufDescTable.length ∧ dirtyPool.hashTable.lookup 1 1 = some 0 ∧
    (dirtyPool.desc 0).dirty = true ∧
    ∃ s1, disposePage dirtyPool 1 1 = Result.ok () s1 ∧
      (s1.desc 0).valid = false ∧ (s1.desc 0).pinCnt = 0 ∧ (s1.desc 0).dirty = false ∧
      (s1.desc 0).refbit = false ∧ (s1.desc 0).file = none ∧
      s1.hashTable.lookup 1 1 = none ∧
      s1.log = dirtyPool.log ++ [IOEvent.delete 1 1] ∧
      (∀ j, j ≠ 0 → s1.desc j = dirtyPool.desc j) ∧
      s1.bufPool = dirtyPool.bufPool ∧ s1.clockHand = dirtyPool.clockHand :=
  ⟨by decide, rfl, rfl, disposePage_resident dirtyPool 1 1 0 (by decide) rfl⟩

/-- C13 at a concrete input: a fresh pool of 2 frames, page 3 of file 1. -/
theorem unPinPage_not_resident_witness :
    (BufMgr 2 demoDisk).hashTable.lookup 1 3 = none ∧
    unPinPage (BufMgr 2 demoDisk) 1 3 true = Result.ok () (BufMgr 2 demoDisk) ∧
    unPinPage (BufMgr 2 demoDisk) 1 3 false = Result.ok () (BufMgr 2 demoDisk) :=
  ⟨rfl, unPinPage_not_resident (BufMgr 2 demoDisk) 1 3 true rfl, rfl⟩

/-- C14 at a concrete input: the one-frame pool holding page 1 of file 1 with
`pinCnt = 0`, released with `dirty = true`. -/
theorem unPinPage_not_pinned_witness :
    dirtyPool.hashTable.lookup 1 1 = some 0 ∧ (dirtyPool.desc 0).pinCnt = 0 ∧
    unPinPage dirtyPool 1 1 true = Result.throw Exc.PageNotPinnedException dirtyPool :=
  ⟨rfl, rfl, unPinPage_not_pinned dirtyPool 1 1 0 true rfl rfl⟩

/-- C15 at a concrete input: the pool of 2 frames holding pages 1 and 2 of
file 1, each pinned once; page 1 is released with `d = true`. -/
theorem unPinPage_effect_witness :
    0 < (fullPool 2).bufDescTable.length ∧ (fullPool 2).hashTable.lookup 1 1 = some 0 ∧
    ((fullPool 2).desc 0).pinCnt = 1 ∧ 0 < 1 ∧
    ∃ s1, unPinPage (fullPool 2) 1 1 true = Result.ok () s1 ∧
      (s1.desc 0).pinCnt = 1 - 1 ∧
      (s1.desc 0).dirty = (((fullPool 2).desc 0).dirty || true) ∧
      (s1.desc 0).valid = ((fullPool 2).desc 0).valid ∧
      (s1.desc 0).refbit = ((fullPool 2).desc 0).refbit ∧
      (s1.desc 0).file = ((fullPool 2).desc 0).file ∧
      (s1.desc 0).pageNo = ((fullPool 2).desc 0).pageNo ∧
      (∀ j, j ≠ 0 → s1.desc j = (fullPool 2).desc j) ∧
      s1.hashTable = (fullPool 2).hashTable ∧ s1.clockHand = (fullPool 2).clockHand ∧
      s1.bufPool = (fullPool 2).bufPool ∧ s1.disk = (fullPool 2).disk ∧
      s1.log = (fullPool 2).log :=
  ⟨by decide, rfl, rfl, by decide,
   unPinPage_effect (fullPool 2) 1 1 0 1 true (by decide) rfl rfl (by decide)⟩

/-- C16. A flush with no pinned frame that does not succeed: pool of 2, fetch
pages 1 and 2 of file 1, release both, fetch page 9 (absent: frame 1 is
evicted, the file read throws). No frame is pinned, frame 1 is not valid but
still names file 1, and `flushFile(file 1)` throws `BadBufferException` after
flushing frame 0; the directory entry of page 2 is still there. -/
theorem flushFile_fails_without_pinned_frame :
    ∃ s s1,
      run 8 [Op.readPage 1 1, Op.readPage 1 2, Op.unPinPage 1 1 true, Op.unPinPage 1 2 false,
        Op.readPage 1 9] (BufMgr 2 demoDisk) = some s ∧
      (s.desc 0).pinCnt = 0 ∧ (s.desc 1).pinCnt = 0 ∧
      (s.desc 1).valid = false ∧ (s.desc 1).file = some 1 ∧
      flushFile s 1 = Result.throw Exc.BadBufferException s1 ∧
      s1.hashTable.lookup 1 2 = some 1 :=
  ⟨_, _, rfl, rfl, rfl, rfl, rfl, rfl, rfl⟩

/-- C17. A flush with a pinned page that does not fail with page-still-pinned:
pool of 2, fetch pages 1 and 2 of file 1, release page 1, fetch page 9 (absent:
frame 0 is evicted, the file read throws). Frame 1 is valid, holds a page of
file 1 and is pinned, but `flushFile(file 1)` throws `BadBufferException` at
frame 0, which is not valid and still names file 1. -/
theorem flushFile_bad_buffer_before_pinned_frame :
    ∃ s,
      run 8 [Op.readPage 1 1, Op.readPage 1 2, Op.unPinPage 1 1 true, Op.readPage 1 9]
        (BufMgr 2 demoDisk) = some s ∧
      (s.desc 1).valid = true ∧ (s.desc 1).file = some 1 ∧ (s.desc 1).pinCnt = 1 ∧
      (s.desc 0).valid = false ∧ (s.desc 0).file = some 1 ∧
      flushFile s 1 = Result.throw Exc.BadBufferException s :=
  ⟨_, rfl, rfl, rfl, rfl, rfl, rfl, rfl⟩

/-- C18 does not hold in every reachable state: after one `readPage` into a
fresh pool the frame is
pinned, and the flush loop of the destructor throws `PagePinnedException`. -/
theorem destructor_throws_on_pinned_frame :
    ∃ s, runOk 4 [Op.readPage 1 1] (BufMgr 1 demoDisk) = some s ∧
      (s.desc 0).valid = true ∧ (s.desc 0).pinCnt = 1 ∧
      destructor s = Result.throw Exc.PagePinnedException s :=
  ⟨_, rfl, rfl, rfl, rfl⟩

/-- C20. Bad buffer state is reachable: pool of 1, fetch page 1 of file 1,
release it, fetch page 9 (absent). `readPage` throws after `allocBuf` has
evicted frame 0, which is left not valid with file 1 as its owner, and
`flushFile(file 1)` throws `BadBufferException`. -/
theorem bad_buffer_reachable_after_failed_read :
    ∃ s0 s,
      runOk 4 [Op.readPage 1 1, Op.unPinPage 1 1 false] (BufMgr 1 demoDisk) = some s0 ∧
      readPage 4 s0 1 9 = Result.throw Exc.InvalidPageException s ∧
      (s.desc 0).valid = false ∧ (s.desc 0).file = some 1 ∧
      flushFile s 1 = Result.throw Exc.BadBufferException s :=
  ⟨_, _, rfl, rfl, rfl, rfl, rfl⟩


/-- C18, for pools in which nothing is pinned. Teardown loses no modification: for
every state in which every valid frame is unpinned and has an owning file and
every frame that is not valid has no owning file, the flush loop of the
destructor returns normally, afterwards no frame is valid, and the trace has
grown by the writes of the frames that were valid and dirty, each to its file
with its contents, each exactly once (in some order), and by nothing else. -/
theorem teardown_writes_every_dirty_frame_once (s : State) (hwf : s.WF)
    (hvalid : ∀ j, j < s.numBufs → (s.desc j).valid = true →
      (s.desc j).pinCnt = 0 ∧ ∃ f, (s.desc j).file = some f)
    (hempty : ∀ j, j < s.numBufs → (s.desc j).valid = false → (s.desc j).file = none) :
    ∃ s1 L, destructor s = Result.ok () s1 ∧
      (∀ j, j < s.numBufs → (s1.desc j).valid = false) ∧
      s1.log = s.log ++ L ∧ List.Perm L (pendingWrites s) ∧
      s1.bufPool = s.bufPool := by
  obtain ⟨s1, L, h1, -, h3, h4, h5, h6⟩ := destructor_ok s hwf ⟨hvalid, hempty⟩
  exact ⟨s1, L, h1, h4, h5, h6, h3⟩

theorem dirtyPool_frames (j : Nat) (hj : j < dirtyPool.numBufs) : j = 0 := by
  have : dirtyPool.numBufs = 1 := rfl
  omega

theorem dirtyPool_valid (j : Nat) (hj : j < dirtyPool.numBufs)
    (_ : (dirtyPool.desc j).valid = true) :
    (dirtyPool.desc j).pinCnt = 0 ∧ ∃ f, (dirtyPool.desc j).file = some f := by
  rw [dirtyPool_frames j hj]
  exact ⟨rfl, 1, rfl⟩

theorem dirtyPool_empty (j : Nat) (hj : j < dirtyPool.numBufs)
    (hv : (dirtyPool.desc j).valid = false) : (dirtyPool.desc j).file = none := by
  rw [dirtyPool_frames j hj] at hv
  cases hv

/-- C18, for pools in which nothing is pinned, at a concrete input: the
one-frame pool holding page 1 of
file 1, released dirty; teardown writes it once. -/
theorem teardown_writes_every_dirty_frame_once_witness :
    dirtyPool.WF ∧
    (∀ j, j < dirtyPool.numBufs → (dirtyPool.desc j).valid = true →
      (dirtyPool.desc j).pinCnt = 0 ∧ ∃ f, (dirtyPool.desc j).file = some f) ∧
    (∀ j, j < dirtyPool.numBufs → (dirtyPool.desc j).valid = false →
      (dirtyPool.desc j).file = none) ∧
    pendingWrites dirtyPool = [IOEvent.write 1 ⟨1, 99⟩] ∧
    ∃ s1 L, destructor dirtyPool = Result.ok () s1 ∧
      (∀ j, j < dirtyPool.numBufs → (s1.desc j).valid = false) ∧
      s1.log = dirtyPool.log ++ L ∧ List.Perm L (pendingWrites dirtyPool) ∧
      s1.bufPool = dirtyPool.bufPool :=
  ⟨dirtyPool_WF, dirtyPool_valid, dirtyPool_empty, rfl,
   teardown_writes_every_dirty_frame_once dirtyPool dirtyPool_WF dirtyPool_valid
     dirtyPool_empty⟩

/-! ### An invariant of the reachable states -/

theorem State.desc_setDesc_cases (s : State) (i j : Nat) (d : BufDesc) :
    (s.setDesc i d).desc j = d ∨ (s.setDesc i d).desc j = s.desc j := by
  by_cases hji : j = i
  · by_cases hlen : i < s.bufDescTable.length
    · left; rw [hji]; exact State.desc_setDesc_eq s i d hlen
    · right
      simp [State.desc, State.setDesc, List.getD_eq_getElem?_getD, List.set_eq_of_length_le
        (Nat.le_of_not_lt hlen)]
  · right; exact State.desc_setDesc_ne s i j d hji

theorem State.Owned.afterSetDesc {s : State} (h : s.Owned) (i : Nat) (d : BufDesc)
    (hd : d.valid = true → ∃ f, d.file = some f) : (s.setDesc i d).Owned := by
  refine ⟨⟨h.wf.pos, h.wf.u32, by simp [State.setDesc, h.wf.descLen], h.wf.poolLen,
    h.wf.hand⟩, ?_⟩
  intro j hv
  rcases State.desc_setDesc_cases s i j d with e | e
  · rw [e] at hv ⊢; exact hd hv
  · rw [e] at hv ⊢; exact h.owner j hv

theorem State.Owned.of_same {s s1 : State} (h : s.Owned) (h1 : s1.numBufs = s.numBufs)
    (h2 : s1.bufDescTable = s.bufDescTable) (h3 : s1.bufPool.length = s.bufPool.length)
    (h4 : s1.clockHand = s.clockHand) : s1.Owned := by
  refine ⟨⟨h1 ▸ h.wf.pos, h1 ▸ h.wf.u32, by rw [h2, h1, h.wf.descLen],
    by rw [h3, h1, h.wf.poolLen], by rw [h4, h1]; exact h.wf.hand⟩, ?_⟩
  intro j hv
  have : s1.desc j = s.desc j := by simp [State.desc, h2]
  rw [this] at hv ⊢
  exact h.owner j hv

theorem RefStep.keepsOwned {s s1 : State} (h : RefStep s s1) (ho : s.Owned)
    (hh : s1.clockHand < s1.numBufs) : s1.Owned := by
  refine ⟨h.preservesWF ho.wf hh, ?_⟩
  intro j hv
  rw [core_file (h.core j)]
  exact ho.owner j (by rw [← h.valid j]; exact hv)

theorem AllocOk.resultOwned {s s1 : State} {i : Nat} (h : AllocOk s i s1) (ho : s.Owned) :
    s1.Owned := by
  refine ⟨h.resultWF ho.wf, ?_⟩
  intro j hv
  have hji : j ≠ i := by
    rintro rfl
    rw [h.invalid] at hv
    cases hv
  rw [core_file (h.core j)]
  exact ho.owner j (by rw [← h.valid j hji]; exact hv)

theorem BufDesc.Set_owner (d : BufDesc) (file pageNo : Nat) :
    (d.Set file pageNo).valid = true → ∃ f, (d.Set file pageNo).file = some f :=
  fun _ => ⟨file, rfl⟩

theorem BufDesc.Clear_owner (d : BufDesc) :
    d.Clear.valid = true → ∃ f, d.Clear.file = some f := by
  intro h; simp [BufDesc.Clear] at h

theorem readPage_owned (fuel : Nat) (s : State) (file pageNo : Nat) (ho : s.Owned) :
    (readPage fuel s file pageNo).Owned := by
  cases hl : s.hashTable.lookup file pageNo with
  | some i =>
    rw [readPage_hit fuel s file pageNo i hl]
    exact ho.afterSetDesc i _ (fun hv => ho.owner i hv)
  | none =>
    cases hA : allocBuf fuel s with
    | diverge => simp [readPage, hl, hA, Result.Owned]
    | throw e s1 =>
      simp only [readPage, hl, hA, Result.Owned]
      obtain ⟨h1, h2⟩ := allocBuf_throw ho.wf hA
      exact h1.keepsOwned ho h2
    | ok i s1 =>
      have ho1 := (allocBuf_ok ho.wf hA).resultOwned ho
      cases hp : (fileReadPage s1 file pageNo).1 with
      | none =>
        rw [readPage_miss_absent fuel s file pageNo i s1 hl hA hp]
        exact ho1.of_same rfl rfl rfl rfl
      | some p =>
        rw [readPage_miss_eq fuel s file pageNo i s1 p hl hA hp]
        have ho2 : ({ ((fileReadPage s1 file pageNo).2.setPage i p) with
            hashTable := s1.hashTable.insert file pageNo i } : State).Owned :=
          ho1.of_same rfl rfl (by simp [fileReadPage, State.setPage]) rfl
        exact ho2.afterSetDesc i _ (BufDesc.Set_owner _ _ _)

theorem unPinPage_owned (s : State) (file pageNo : Nat) (dirty : Bool) (ho : s.Owned) :
    (unPinPage s file pageNo dirty).Owned := by
  unfold unPinPage
  cases hl : s.hashTable.lookup file pageNo with
  | none => exact ho
  | some i =>
    simp only
    split
    · exact ho
    · exact ho.afterSetDesc i _ (fun hv => ho.owner i hv)

theorem allocPage_owned (fuel : Nat) (s : State) (file : Nat) (page : Page) (ho : s.Owned) :
    (allocPage fuel s file page).Owned := by
  have ho0 : (fileAllocatePage s file).2.Owned := ho.of_same rfl rfl rfl rfl
  unfold allocPage
  simp only
  cases hA : allocBuf fuel (fileAllocatePage s file).2 with
  | diverge => trivial
  | throw e s1 =>
    obtain ⟨h1, h2⟩ := allocBuf_throw ho0.wf hA
    exact h1.keepsOwned ho0 h2
  | ok i s1 =>
    have ho1 := (allocBuf_ok ho0.wf hA).resultOwned ho0
    have ho2 : ({ s1 with hashTable := s1.hashTable.insert file page.number i } : State).Owned :=
      ho1.of_same rfl rfl rfl rfl
    have ho3 := ho2.afterSetDesc i ((({ s1 with hashTable := s1.hashTable.insert file page.number i }
      : State).desc i).Set file page.number) (BufDesc.Set_owner _ _ _)
    exact ho3.of_same rfl rfl (by simp [State.setPage]) rfl

theorem disposePage_owned (s : State) (file pageNo : Nat) (ho : s.Owned) :
    (disposePage s file pageNo).Owned := by
  unfold disposePage
  cases hl : s.hashTable.lookup file pageNo with
  | none => exact ho.of_same rfl rfl rfl rfl
  | some i =>
    have h1 := ho.afterSetDesc i (s.desc i).Clear (BufDesc.Clear_owner _)
    exact h1.of_same rfl rfl rfl rfl

theorem flushStep_owned (s : State) (file frame : Nat) (ho : s.Owned)
    (hlen : frame < s.bufDescTable.length) : (flushStep s file frame).Owned := by
  obtain ⟨e1, e2, e3, e4, e5, e6, -, -⟩ := flushStep_spec s file frame hlen
  refine ⟨⟨e1 ▸ ho.wf.pos, e1 ▸ ho.wf.u32, by rw [e4, e1, ho.wf.descLen],
    by rw [e2, e1, ho.wf.poolLen], by rw [e3, e1]; exact ho.wf.hand⟩, ?_⟩
  intro j hv
  by_cases hj : j = frame
  · rw [hj, e5] at hv; simp [BufDesc.Clear] at hv
  · rw [e6 j hj] at hv ⊢; exact ho.owner j hv

theorem flushFileLoop_owned (file : Nat) : ∀ (k i : Nat) (s : State), s.Owned →
    i + k ≤ s.bufDescTable.length → (flushFileLoop file k i s).Owned := by
  intro k
  induction k with
  | zero => intro i s ho _; exact ho
  | succ k ih =>
    intro i s ho hlen
    by_cases hf : (s.desc i).file = some file
    · cases hv : (s.desc i).valid with
      | false => simp only [flushFileLoop, hf, hv]; exact ho
      | true =>
        by_cases hp : (s.desc i).pinCnt = 0
        · rw [flushFileLoop_step file k i s hf hv hp]
          have ho1 := flushStep_owned s file i ho (by omega)
          exact ih (i + 1) _ ho1 (by
            rw [(flushStep_spec s file i (by omega)).2.2.2.1]; omega)
        · have : 0 < (s.desc i).pinCnt := by omega
          simp only [flushFileLoop, hf, hv, this]
          exact ho
    · rw [flushFileLoop_skip file k i s hf]
      exact ih (i + 1) s ho (by omega)

theorem flushFile_owned (s : State) (file : Nat) (ho : s.Owned) :
    (flushFile s file).Owned :=
  flushFileLoop_owned file s.numBufs 0 s ho (by rw [ho.wf.descLen]; omega)

theorem BufMgr_owned (n : Nat) (disk : List (Nat × Page)) (h0 : 0 < n) (h1 : n < 4294967296) :
    (BufMgr n disk).Owned := by
  refine ⟨(BufMgr_pinInv n disk h0 h1).wf, ?_⟩
  intro j hv
  exfalso
  by_cases hj : j < n
  · simp [State.desc, BufMgr, List.getD_eq_getElem?_getD, List.getElem?_map,
      List.getElem?_range hj, BufDesc.init] at hv
  · have : (BufMgr n disk).bufDescTable[j]? = none :=
      List.getElem?_eq_none (by simp [BufMgr]; omega)
    simp [State.desc, List.getD_eq_getElem?_getD, this] at hv
    exact absurd hv (by decide)


theorem Op.exec_owned (fuel : Nat) (op : Op) (s s1 : State) (ho : s.Owned)
    (h : op.exec fuel s = some s1) : s1.Owned := by
  cases op with
  | readPage f p =>
    have := readPage_owned fuel s f p ho
    simp only [Op.exec] at h
    cases hr : badgerdb.readPage fuel s f p with
    | ok a s2 => rw [hr] at h this; cases h; exact this
    | throw e s2 => rw [hr] at h this; cases h; exact this
    | diverge => rw [hr] at h; cases h
  | unPinPage f p d =>
    have := unPinPage_owned s f p d ho
    simp only [Op.exec] at h
    cases hr : badgerdb.unPinPage s f p d with
    | ok a s2 => rw [hr] at h this; cases h; exact this
    | throw e s2 => rw [hr] at h this; cases h; exact this
    | diverge => rw [hr] at h; cases h
  | allocPage f pg =>
    have := allocPage_owned fuel s f pg ho
    simp only [Op.exec] at h
    cases hr : badgerdb.allocPage fuel s f pg with
    | ok a s2 => rw [hr] at h this; cases h; exact this
    | throw e s2 => rw [hr] at h this; cases h; exact this
    | diverge => rw [hr] at h; cases h
  | flushFile f =>
    have := flushFile_owned s f ho
    simp only [Op.exec] at h
    cases hr : badgerdb.flushFile s f with
    | ok a s2 => rw [hr] at h this; cases h; exact this
    | throw e s2 => rw [hr] at h this; cases h; exact this
    | diverge => rw [hr] at h; cases h
  | disposePage f p =>
    have := disposePage_owned s f p ho
    simp only [Op.exec] at h
    cases hr : badgerdb.disposePage s f p with
    | ok a s2 => rw [hr] at h this; cases h; exact this
    | throw e s2 => rw [hr] at h this; cases h; exact this
    | diverge => rw [hr] at h; cases h

theorem run_owned (fuel : Nat) (ops : List Op) : ∀ (s s1 : State), s.Owned →
    run fuel ops s = some s1 → s1.Owned := by
  induction ops with
  | nil => intro s s1 ho h; simp only [run, Option.some.injEq] at h; exact h ▸ ho
  | cons op ops ih =>
    intro s s1 ho h
    simp only [run] at h
    cases hop : op.exec fuel s with
    | none => simp [hop] at h
    | some s2 =>
      simp only [hop] at h
      exact ih s2 s1 (Op.exec_owned fuel op s s2 ho hop) h

/-- In every reachable state the pool is well formed and every valid frame has
an owning file. -/
theorem reachable_owned (s : State) (h : Reachable s) : s.Owned := by
  obtain ⟨fuel, n, disk, ops, h0, h1, hrun⟩ := h
  exact run_owned fuel ops _ s (BufMgr_owned n disk h0 h1) hrun

/-! ### flushFile with a pinned page -/

/-- The loop of `flushFile` when every frame that names the file is valid and
one of them is pinned: it throws `PagePinnedException`; the pool contents, the
pinned frames of the file and the frames of other files are as before, and the
directory has lost only keys of unpinned frames of the file. -/
theorem flushFileLoop_pinned (file : Nat) : ∀ (k i : Nat) (s : State),
    i + k ≤ s.bufDescTable.length →
    (∀ j, i ≤ j → j < i + k → (s.desc j).file = some file → (s.desc j).valid = true) →
    (∃ j, i ≤ j ∧ j < i + k ∧ (s.desc j).file = some file ∧ 0 < (s.desc j).pinCnt) →
    ∃ s1, flushFileLoop file k i s = Result.throw Exc.PagePinnedException s1 ∧
      s1.bufPool = s.bufPool ∧ s1.numBufs = s.numBufs ∧ s1.clockHand = s.clockHand ∧
      (∀ j, (s.desc j).file = some file → 0 < (s.desc j).pinCnt → s1.desc j = s.desc j) ∧
      (∀ j, (s.desc j).file ≠ some file → s1.desc j = s.desc j) ∧
      (∀ f p, (∀ j, i ≤ j → j < i + k → (s.desc j).file = some file →
          (s.desc j).pinCnt = 0 → (f, p) ≠ (file, (s.desc j).pageNo)) →
        s1.hashTable.lookup f p = s.hashTable.lookup f p) := by
  intro k
  induction k with
  | zero =>
    intro i s _ _ hex
    obtain ⟨j, h1, h2, -, -⟩ := hex
    omega
  | succ k ih =>
    intro i s hlen hvalid hex
    by_cases hf : (s.desc i).file = some file
    · have hv := hvalid i (Nat.le_refl i) (by omega) hf
      by_cases hp : (s.desc i).pinCnt = 0
      · rw [flushFileLoop_step file k i s hf hv hp]
        obtain ⟨e1, e2, e3, e4, e5, e6, -, e8⟩ := flushStep_spec s file i (by omega)
        have hsame : ∀ j, j ≠ i → (flushStep s file i).desc j = s.desc j := e6
        obtain ⟨s1, hrun, h1, h2, h3, h4, h5, h6⟩ := ih (i + 1) (flushStep s file i)
          (by rw [e4]; omega)
          (by
            intro j hj1 hj2 hj3
            rw [hsame j (by omega)] at hj3 ⊢
            exact hvalid j (by omega) (by omega) hj3)
          (by
            obtain ⟨j, hj1, hj2, hj3, hj4⟩ := hex
            have hji : j ≠ i := by
              rintro rfl
              omega
            exact ⟨j, by omega, by omega, by rw [hsame j hji]; exact hj3,
              by rw [hsame j hji]; exact hj4⟩)
        refine ⟨s1, hrun, h1.trans e2, h2.trans e1, h3.trans e3, ?_, ?_, ?_⟩
        · intro j hj1 hj2
          have hji : j ≠ i := by
            rintro rfl
            omega
          rw [← hsame j hji]
          exact h4 j (by rw [hsame j hji]; exact hj1) (by rw [hsame j hji]; exact hj2)
        · intro j hj1
          have hji : j ≠ i := by
            rintro rfl
            exact hj1 hf
          rw [← hsame j hji]
          exact h5 j (by rw [hsame j hji]; exact hj1)
        · intro f p hne
          rw [h6 f p (by
            intro j hj1 hj2 hj3 hj4
            rw [hsame j (by omega)] at hj3 hj4 ⊢
            exact hne j (by omega) (by omega) hj3 hj4), e8]
          exact BufHashTbl.lookup_remove_other _ _ _ _ _ (hne i (Nat.le_refl i) (by omega) hf hp)
      · have hpos : 0 < (s.desc i).pinCnt := by omega
        refine ⟨s, ?_, rfl, rfl, rfl, fun _ _ _ => rfl, fun _ _ => rfl, fun _ _ _ => rfl⟩
        simp [flushFileLoop, hf, hv, hpos]
    · rw [flushFileLoop_skip file k i s hf]
      obtain ⟨s1, hrun, h1, h2, h3, h4, h5, h6⟩ := ih (i + 1) s (by omega)
        (fun j hj1 hj2 hj3 => hvalid j (by omega) (by omega) hj3)
        (by
          obtain ⟨j, hj1, hj2, hj3, hj4⟩ := hex
          have hji : j ≠ i := by
            rintro rfl
            exact hf hj3
          exact ⟨j, by omega, by omega, hj3, hj4⟩)
      exact ⟨s1, hrun, h1, h2, h3, h4, h5, fun f p hne =>
        h6 f p (fun j hj1 hj2 hj3 hj4 => hne j (by omega) (by omega) hj3 hj4)⟩

/-- Flushing a file with a pinned page, when every frame that names the file is
valid: `flushFile` throws `PagePinnedException`; the pool contents and the
descriptor of every pinned frame of the file are as before, and so is the
directory entry of a pinned frame whose page number no other frame of the file
carries. -/
theorem flushFile_pinned (s : State) (file : Nat) (hwf : s.WF)
    (hvalid : ∀ j, j < s.numBufs → (s.desc j).file = some file → (s.desc j).valid = true)
    (hpinned : ∃ j, j < s.numBufs ∧ (s.desc j).file = some file ∧ 0 < (s.desc j).pinCnt) :
    ∃ s1, flushFile s file = Result.throw Exc.PagePinnedException s1 ∧
      s1.bufPool = s.bufPool ∧
      (∀ j, (s.desc j).file = some file → 0 < (s.desc j).pinCnt → s1.desc j = s.desc j) ∧
      (∀ j, j < s.numBufs → (s.desc j).file = some file → 0 < (s.desc j).pinCnt →
        (∀ a, a < s.numBufs → (s.desc a).file = some file →
          (s.desc a).pageNo = (s.desc j).pageNo → a = j) →
        s1.hashTable.lookup file (s.desc j).pageNo
          = s.hashTable.lookup file (s.desc j).pageNo) := by
  obtain ⟨s1, hrun, h1, -, -, h4, -, h6⟩ := flushFileLoop_pinned file s.numBufs 0 s
    (by rw [hwf.descLen]; omega)
    (fun j _ hj2 hj3 => hvalid j (by omega) hj3)
    (by
      obtain ⟨j, hj1, hj2, hj3⟩ := hpinned
      exact ⟨j, Nat.zero_le j, by omega, hj2, hj3⟩)
  refine ⟨s1, hrun, h1, h4, ?_⟩
  intro j hj hjf hjp hdistinct
  apply h6
  intro a _ ha2 ha3 ha4 heq
  have hpg : (s.desc a).pageNo = (s.desc j).pageNo := by
    have := congrArg Prod.snd heq
    exact this.symm
  have := hdistinct a (by omega) ha3 hpg
  subst this
  omega

/-! ### allocBuf and the reference clock procedure -/

/-- The pool `releasedPool` is reachable: fetch pages 1, 2, 3 into a fresh pool
of 3 frames and release them, every call returning normally. -/
theorem releasedPool_reached :
    runOk 4 [Op.readPage 1 1, Op.readPage 1 2, Op.readPage 1 3, Op.unPinPage 1 1 false,
      Op.unPinPage 1 2 false, Op.unPinPage 1 3 false] (BufMgr 3 demoDisk)
      = some releasedPool := rfl

end badgerdb
